import Mathlib

/-!
A shallow embedding of `ini.hpp` (ini_parser).

The header implements a line-oriented INI reader and a reconciling writer.
This development embeds the scanner (`fetch_line`), the configuration model
(`element`, `collections`, `config`), the loader (`read_ini`) and the writer
(`output_section`, `write_ini`) and proves properties of them.

Modelling conventions.

* A `std::string` is a list of `Char`.  The library keeps a value-initialised
  character at index `size()`; a pointer range that ends at `&data[size() + 1]`
  therefore covers that terminator, which is what `bytes` returns.
* `std::unordered_map` is an association list; `find` takes the first match,
  `emplace` adds at the end, and iteration follows the list order.  The C++
  container leaves the order unspecified and an insertion may rehash, after
  which the same entries are iterated in another order: the list stands for
  the order at hand, and where a statement compares what is written with and
  without an insertion it is made for every order of the entries and of the
  final loop of the writer (`List.Perm`, see `write_ini_in`, `flagged_perm`).
* A `T&` obtained from `getter` is modelled by the pair "container after the
  lookup, element found" together with `store`, which writes the element back.
* `int end` is embedded twice.  `scan_line_int` and `fetch_line_int` keep the
  32-bit integer: `(int)npos` keeps the low 32 bits, `-1` means unset, and a
  range that `assign` cannot take gives no result.  `scan_line` and
  `fetch_line` keep the exact offset (`Option Nat`, `none` for `-1`); the
  loader and the writer are built on them.  The two agree on every buffer of at
  most `2^31` bytes (`fetch_line_int_exact`), and differ beyond
  (`fetch_line_int_wraps`).
* When `output_section` indexes `data[data.size() - 1]` or `data[data.size() - 2]`
  on a buffer that is too short, the index wraps and the read lands before the
  buffer.  What is stored there is not determined by the program, so it is a
  parameter `under`: `under i` is the byte `i + 1` places before the buffer.
* Loops carry a fuel argument that is at least the number of iterations the
  C++ loop can make (every iteration advances `npos`).
-/

namespace ini

/-- Contents of a `std::string`. -/
abbrev Str := List Char

/-- The terminator stored at index `size()` of a `std::string`. -/
def NUL : Char := Char.ofNat 0

/-- `std::isspace` in the "C" locale: space, `\t`, `\n`, `\v`, `\f`, `\r`; no
other character, in particular none outside ASCII, counts as whitespace. -/
def isspace (c : Char) : Bool :=
  c == ' ' || c == '\t' || c == '\n' || c == Char.ofNat 11 || c == Char.ofNat 12 || c == '\r'

/-- Range `[&data[b], &data[e])` of the buffer followed by its terminator. -/
def bytes (data : Str) (b e : Nat) : Str :=
  ((data ++ [NUL]).drop b).take (e - b)

/-- Read of `data[i]`; index `size()` yields the terminator. -/
def at_ (data : Str) (i : Nat) : Char := data.getD i NUL

namespace container

/-- Template `element<T>`: a payload and its dirty flag. -/
structure element (T : Type) where
  value_ : T
  update_ : Bool := false
deriving DecidableEq, Repr

instance {T : Type} [Inhabited T] : Inhabited (element T) := ⟨⟨default, false⟩⟩

/-- Type `std::unordered_map<std::string, T>`. -/
abbrev umap (T : Type) := List (Str × T)

/-- Member `find`: the mapped value of the first entry with this key. -/
def umap_find {T : Type} : umap T → Str → Option T
  | [], _ => none
  | (k, x) :: rest, key => if k = key then some x else umap_find rest key

/-- Assignment `it->second = v` through the iterator returned by `find`. -/
def umap_assign {T : Type} : umap T → Str → T → umap T
  | [], _, _ => []
  | (k, x) :: rest, key, v =>
    if k = key then (k, v) :: rest else (k, x) :: umap_assign rest key v

/-- Member `emplace`: inserts only when the key is not present yet.  The new
entry goes to the end of the list; the C++ container may rehash on insertion
and iterate the entries in another order afterwards, which the list does not
show. -/
def umap_emplace {T : Type} (m : umap T) (key : Str) (v : T) : umap T :=
  match umap_find m key with
  | some _ => m
  | none => m ++ [(key, v)]

/-- Template `collections<T>`: an `element` holding a map. -/
abbrev collections (T : Type) := element (umap T)

/-- Method `collections::setter`. -/
def setter {T : Type} (c : collections T) (key : Str) (value : T) : collections T :=
  match umap_find c.value_ key with
  | none => { c with value_ := umap_emplace c.value_ key value }
  | some _ => { c with value_ := umap_assign c.value_ key value }

/-- Method `T& collections::getter`: the container after the lookup (a missing
key has been emplaced with `T()`) and the element the reference points to. -/
def getter {T : Type} [Inhabited T] (c : collections T) (key : Str) : collections T × T :=
  match umap_find c.value_ key with
  | none => ({ c with value_ := umap_emplace c.value_ key default }, default)
  | some x => (c, x)

/-- Write through a reference previously returned by `getter`. -/
def store {T : Type} (c : collections T) (key : Str) (v : T) : collections T :=
  { c with value_ := umap_assign c.value_ key v }

/-- Alias `attribute`. -/
abbrev Attribute := element Str
/-- Alias `section`. -/
abbrev Section := collections Attribute
/-- Alias `config`. -/
abbrev Config := collections Section

instance : DecidableEq Attribute := inferInstance
instance : DecidableEq Section := inferInstance
instance : DecidableEq (Str × Section) := instDecidableEqProd
instance : DecidableEq Config := instDecidableEqElement

end container

namespace parser

open container

/-- Method `config::set<std::string>`. -/
def config_set (conf : Config) (sect key value : Str) : Config :=
  let r := getter conf sect
  let it := setter r.2 key ⟨value, true⟩
  let it := { it with update_ := true }
  store r.1 sect it

/-- Method `std::string config::get`: the section is found through the
non-const `getter` (so it is created in the config when missing), the key is
looked up in a copy of the section. -/
def config_get (conf : Config) (sect key : Str) : Config × Str :=
  let r := getter conf sect
  let attr := (getter r.2 key).2
  (r.1, attr.value_)

/-- First loop of `fetch_line`: skip leading whitespace. -/
def skip_space (data : Str) : Nat → Nat → Nat
  | 0, npos => npos
  | fuel + 1, npos =>
    if npos < data.length && isspace (at_ data npos) then skip_space data fuel (npos + 1)
    else npos

/-- Second loop of `fetch_line`: scan to the newline, tracking `end` and
`comment`, with the offset kept in `end` taken exactly (`scan_line_int` keeps
the 32-bit `int`; the two agree on buffers of at most `2^31` bytes). -/
def scan_line (data : Str) : Nat → Nat → Option Nat → Bool → Nat × Option Nat
  | 0, npos, e, _ => (npos, e)
  | fuel + 1, npos, e, comment =>
    if npos < data.length && at_ data npos != '\n' then
      if isspace (at_ data npos) then
        scan_line data fuel (npos + 1) (if e = none then some npos else e) comment
      else if at_ data npos == ';' || at_ data npos == '#' then
        scan_line data fuel (npos + 1) (if e = none then some npos else e) true
      else if !comment then
        scan_line data fuel (npos + 1) none comment
      else
        scan_line data fuel (npos + 1) e comment
    else (npos, e)

/-- Result of `fetch_line`: the returned offset and the three out-parameters. -/
structure Fetched where
  npos : Nat
  front : Str
  middle : Str
  back : Str
deriving DecidableEq, Repr

/-- Function `fetch_line`.  `middle` and `back` are passed in because the early
return leaves the caller's strings untouched.  The offset in `end` is exact
here; `fetch_line_int` is the same function with the 32-bit `int`. -/
def fetch_line (data : Str) (npos : Nat) (middle back : Str) : Fetched :=
  let start := npos
  let npos := skip_space data (data.length - npos) npos
  let front := bytes data start npos
  if npos ≥ data.length then ⟨npos, front, middle, back⟩
  else
    let start := npos
    let r := scan_line data (data.length - npos) npos none false
    let cut := match r.2 with
      | none => r.1
      | some e => e
    ⟨r.1, front, bytes data start cut, bytes data cut (r.1 + 1)⟩

/-- Test `middle.front() == '[' && middle.back() == ']'`. -/
def is_header (middle : Str) : Bool :=
  middle.head? == some '[' && middle.getLast? == some ']'

/-- Expression `middle.substr(1, middle.size() - 2)`. -/
def header_name (middle : Str) : Str := (middle.drop 1).take (middle.length - 2)

/-- Members of the set `" \t"`. -/
def isblank (c : Char) : Bool := c == ' ' || c == '\t'

/-- Key text: `substr(0, equal_pos)` followed by
`erase(find_last_not_of(" \t") + 1)`. -/
def key_of (middle : Str) : Str :=
  (middle.take (middle.indexOf '=')).rdropWhile isblank

/-- Value text: `substr(equal_pos + 1)` followed by
`erase(0, find_first_not_of(" \t"))`. -/
def value_of (middle : Str) : Str :=
  (middle.drop (middle.indexOf '=' + 1)).dropWhile isblank

/-- Local variables of `read_ini` together with the config. -/
structure RState where
  npos : Nat
  middle : Str
  back : Str
  section_name : Str
  conf : Config
deriving Repr

/-- What the body of the loop in `read_ini` does with the scanned `middle`. -/
def read_line (section_name : Str) (conf : Config) (middle : Str) : Str × Config :=
  if middle.isEmpty then (section_name, conf)
  else if is_header middle then (header_name middle, conf)
  else if '=' ∈ middle then
    let key := key_of middle
    let value := value_of middle
    let r := getter conf section_name
    let a := getter r.2 key
    let sect := if !a.2.update_ then store a.1 key { a.2 with value_ := value } else a.1
    (section_name, store r.1 section_name sect)
  else (section_name, conf)

/-- One iteration of the loop in `read_ini`, including the `npos++`. -/
def read_body (data : Str) (st : RState) : RState :=
  let f := fetch_line data st.npos st.middle st.back
  let r := read_line st.section_name st.conf f.middle
  ⟨f.npos + 1, f.middle, f.back, r.1, r.2⟩

/-- The `for` loop of `read_ini`. -/
def read_loop (data : Str) : Nat → RState → RState
  | 0, st => st
  | fuel + 1, st =>
    if st.npos < data.length then read_loop data fuel (read_body data st) else st

/-- Function `read_ini`, applied to the content of the file. -/
def read_ini (data : Str) (conf : Config) : Config :=
  (read_loop data data.length ⟨0, [], [], [], conf⟩).conf

/-- Byte `data[data.size() - k]` as `output_section` reads it. -/
def peek_back (under : Nat → Char) (data : Str) (k : Nat) : Char :=
  if k ≤ data.length then at_ data (data.length - k) else under (k - data.length - 1)

/-- Line-ending detection at the top of `output_section`. -/
def detect_endl (under : Nat → Char) (data endl : Str) : Str :=
  if endl.isEmpty then
    if peek_back under data 1 == '\r' then ['\r']
    else if peek_back under data 1 == '\n' then
      if peek_back under data 2 == '\r' then ['\r', '\n'] else ['\n']
    else endl
  else endl

/-- The loop over the attributes in `output_section`. -/
def output_attrs (endl : Str) : umap Attribute → Str → Str × umap Attribute
  | [], data => (data, [])
  | (k, a) :: rest, data =>
    if a.update_ then
      let r := output_attrs endl rest (data ++ k ++ [' ', '=', ' '] ++ a.value_ ++ endl)
      (r.1, (k, { a with update_ := false }) :: r.2)
    else
      let r := output_attrs endl rest data
      (r.1, (k, a) :: r.2)

/-- Result of `output_section`: its three in-out parameters. -/
structure Flushed where
  data : Str
  sect : Section
  endl : Str
deriving DecidableEq, Repr

/-- Function `output_section`. -/
def output_section (under : Nat → Char) (data : Str) (sect : Section) (endl : Str)
    (name : Str) : Flushed :=
  let endl := detect_endl under data endl
  if sect.update_ then
    let data := if name.length ≠ 0 then data ++ ['['] ++ name ++ [']'] ++ endl else data
    let r := output_attrs endl sect.value_ data
    ⟨r.1, ⟨r.2, false⟩, endl⟩
  else ⟨data, sect, endl⟩

/-- Local variables of `write_ini` together with the config. -/
structure WState where
  npos : Nat
  middle : Str
  back : Str
  section_name : Str
  endl : Str
  output : Str
  conf : Config
deriving Repr

/-- Part of the loop body of `write_ini` between `fetch_line` and the three
`output.append` calls. -/
def write_line (under : Nat → Char) (st : WState) (middle : Str) : WState :=
  if middle.isEmpty then { st with middle := middle }
  else if is_header middle then
    let st1 : WState :=
      if st.section_name.length ≠ 0 then
        let r := getter st.conf st.section_name
        let f := output_section under st.output r.2 st.endl []
        { st with output := f.data, endl := f.endl, conf := store r.1 st.section_name f.sect }
      else st
    let name := header_name middle
    let r := getter st1.conf name
    { st1 with middle := middle, conf := r.1,
               section_name := if !r.2.update_ then [] else name }
  else if st.section_name.length ≠ 0 then
    if '=' ∈ middle then
      let key := key_of middle
      let r := getter st.conf st.section_name
      let a := getter r.2 key
      if a.2.update_ then
        let middle := middle.take (middle.indexOf '=' + 1) ++ [' '] ++ a.2.value_
        let sect := store a.1 key { a.2 with update_ := false }
        { st with middle := middle, conf := store r.1 st.section_name sect }
      else
        { st with middle := middle, conf := store r.1 st.section_name a.1 }
    else { st with middle := middle }
  else { st with middle := middle }

/-- One iteration of the loop in `write_ini`, including the `npos++`. -/
def write_body (under : Nat → Char) (data : Str) (st : WState) : WState :=
  let f := fetch_line data st.npos st.middle st.back
  let st1 := write_line under st f.middle
  { st1 with npos := f.npos + 1, back := f.back,
             output := st1.output ++ f.front ++ st1.middle ++ f.back }

/-- The `for` loop of `write_ini`. -/
def write_loop (under : Nat → Char) (data : Str) : Nat → WState → WState
  | 0, st => st
  | fuel + 1, st =>
    if st.npos < data.length then write_loop under data fuel (write_body under data st)
    else st

/-- Flush of the last section after the loop of `write_ini`. -/
def flush_last (under : Nat → Char) (st : WState) : WState :=
  if st.section_name.length ≠ 0 then
    let r := getter st.conf st.section_name
    let f := output_section under st.output r.2 st.endl []
    { st with output := f.data, endl := f.endl, conf := store r.1 st.section_name f.sect }
  else st

/-- The final loop `for (auto& it : conf.value_)` of `write_ini`. -/
def output_all (under : Nat → Char) : umap Section → Str → Str → Str × Str × umap Section
  | [], data, endl => (data, endl, [])
  | (name, sect) :: rest, data, endl =>
    let f := output_section under data sect endl name
    let r := output_all under rest f.data f.endl
    (r.1, r.2.1, (name, f.sect) :: r.2.2)

/-- Function `write_ini` (the reconciling variant), applied to the current
content of the file: the bytes written back and the config afterwards. -/
def write_ini (under : Nat → Char) (data : Str) (conf : Config) : Str × Config :=
  let st := write_loop under data data.length ⟨0, [], [], [], [], [], conf⟩
  let st := flush_last under st
  let r := output_all under st.conf.value_ st.output st.endl
  (r.1, { st.conf with value_ := r.2.2 })

/-- A freshly constructed `config`. -/
def empty_config : Config := ⟨[], false⟩

/-- Memory in front of the output buffer that holds only zero bytes. -/
def zeros : Nat → Char := fun _ => NUL

/-- The attribute stored for `key` in section `sect`, if both exist. -/
def attr_at (conf : Config) (sect key : Str) : Option Attribute :=
  (umap_find conf.value_ sect).bind fun s => umap_find s.value_ key

/-- A physical line as the scanner sees it: leading whitespace (possibly
spanning blank lines), the content, the whitespace after the content, and a
comment that runs to the end of the line.  The newline is implicit. -/
structure Line where
  front : Str
  middle : Str
  gap : Str
  comment : Str
deriving DecidableEq, Repr

/-- Everything of the line after its content, the newline included. -/
def Line.back (l : Line) : Str := l.gap ++ l.comment ++ ['\n']

/-- The bytes of the line. -/
def Line.text (l : Line) : Str := l.front ++ l.middle ++ l.back

/-- The characters `;` and `#`. -/
def is_comment (c : Char) : Bool := c == ';' || c == '#'

/-- The four parts of a line are what their names say: `front` is whitespace,
`middle` has no comment marker and no newline and neither starts nor ends with
whitespace, `gap` is whitespace without a newline, `comment` is empty or starts
with a marker and has no newline, and a line without content is a comment. -/
def Line.wf (l : Line) : Bool :=
  l.front.all isspace &&
  l.middle.all (fun c => !is_comment c && c != '\n') &&
  (match l.middle.head? with
    | some c => !isspace c
    | none => l.gap.isEmpty && !l.comment.isEmpty) &&
  (match l.middle.getLast? with
    | some c => !isspace c
    | none => true) &&
  l.gap.all (fun c => isspace c && c != '\n') &&
  l.comment.all (fun c => c != '\n') &&
  (match l.comment.head? with
    | some c => is_comment c
    | none => true)

/-- The file made of the given lines. -/
def render : List Line → Str
  | [] => []
  | l :: ls => l.text ++ render ls

/-- One iteration of the loop of `write_ini` on a line whose parts are known. -/
def write_step (under : Nat → Char) (st : WState) (l : Line) : WState :=
  let st1 := write_line under st l.middle
  { st1 with npos := st.npos + l.text.length, back := l.back,
             output := st1.output ++ l.front ++ st1.middle ++ l.back }

/-- The loop of `write_ini` run over a list of lines instead of a buffer. -/
def write_lines (under : Nat → Char) : WState → List Line → WState
  | st, [] => st
  | st, l :: ls => write_lines under (write_step under st l) ls

/-- What `write_ini` does after its scan loop. -/
def write_finish (under : Nat → Char) (st : WState) : Str × Config :=
  let st := flush_last under st
  let r := output_all under st.conf.value_ st.output st.endl
  (r.1, { st.conf with value_ := r.2.2 })

/-- No attribute of the map is dirty. -/
def attrs_clean (m : umap Attribute) : Bool := m.all fun p => !p.2.update_

/-- Neither the section nor any of its attributes is dirty. -/
def section_clean (s : Section) : Bool := !s.update_ && attrs_clean s.value_

/-- No section and no attribute of the config is dirty. -/
def config_clean (c : Config) : Bool := c.value_.all fun p => section_clean p.2

/-- The sections whose dirty flag is set, in iteration order. -/
def flagged (m : umap Section) : umap Section := m.filter fun p => p.2.update_

/-- Effect on `flagged` of assigning `s` to the first entry named `n` when that
entry is flagged: it is replaced, or dropped when `s` is not flagged. -/
def flagged_assign : umap Section → Str → Section → umap Section
  | [], _, _ => []
  | (k, x) :: rest, n, s =>
    if k = n then (if s.update_ then (k, s) :: rest else rest)
    else (k, x) :: flagged_assign rest n s

/-- Two configs that the writer cannot tell apart: every lookup by name
returns the same section, and the flagged sections are the same in the same
order. -/
def same_view (c d : Config) : Prop :=
  (∀ n, (getter c n).2 = (getter d n).2) ∧ flagged c.value_ = flagged d.value_

/-- Two states of `write_ini` that agree on every local variable and hold
configs the writer cannot tell apart. -/
def same_state (s t : WState) : Prop :=
  s.npos = t.npos ∧ s.middle = t.middle ∧ s.back = t.back ∧
  s.section_name = t.section_name ∧ s.endl = t.endl ∧ s.output = t.output ∧
  same_view s.conf t.conf

/-- The map has an entry for `k` that satisfies `P`, it is the first entry with
that key, and every other entry satisfies `good`. -/
def focus {T : Type} (good P : T → Prop) (m : umap T) (k : Str) : Prop :=
  ∃ A x B, m = A ++ (k, x) :: B ∧ (∀ p ∈ A, p.1 ≠ k) ∧
    (∀ p ∈ A, good p.2) ∧ (∀ p ∈ B, good p.2) ∧ P x

/-- The section is flagged but none of its attributes is dirty. -/
def hollow (s : Section) : Prop := s.update_ = true ∧ attrs_clean s.value_ = true

/-- Section `s` is flagged but holds no dirty attribute, and nothing else is dirty. -/
def hollow_at (c : Config) (s : Str) : Prop :=
  focus (fun x => section_clean x = true) hollow c.value_ s

/-- Loader and writer treat a line with this content as a section header. -/
def is_section_line (middle : Str) : Bool := !middle.isEmpty && is_header middle

/-- The writer is past its only dirty attribute: either section `s` is still
active and hollow, or no section is active and the config has no dirty flag. -/
def settled (s : Str) (st : WState) : Prop :=
  (st.section_name = s ∧ s ≠ [] ∧ hollow_at st.conf s) ∨
  (st.section_name = [] ∧ config_clean st.conf = true)

end parser

end ini

namespace ini

namespace parser

open container

/-- The spec's `L`: the bytes from the first non-whitespace byte at or after
offset `p` up to, not including, the next newline or the end of the buffer. -/
def line_text (data : Str) (p : Nat) : Str :=
  ((data.drop p).dropWhile isspace).takeWhile fun c => c != '\n'

/-- The spec's `middle`: the longest prefix of `L` without `;` and `#`, with
its trailing whitespace removed. -/
def middle_ref (data : Str) (p : Nat) : Str :=
  ((line_text data p).takeWhile fun c => !is_comment c).rdropWhile isspace

/-- Dirty flag of the section named `s`; a section the config does not hold is
not dirty. -/
def section_dirty (c : Config) (s : Str) : Bool :=
  match umap_find c.value_ s with
  | some x => x.update_
  | none => false

/-- Dirty flag of the value stored at `(s, k)`; a value the config does not
hold is not dirty. -/
def attr_dirty (c : Config) (s k : Str) : Bool :=
  match attr_at c s k with
  | some a => a.update_
  | none => false

/-- A call made by a client of the library: `set`, `get`, `read_ini` on a file
content, or `write_ini` over a file content (with the memory that lies in
front of the output buffer). -/
inductive Op where
  | set (sect key value : Str)
  | get (sect key : Str)
  | load (data : Str)
  | save (under : Nat → Char) (data : Str)

/-- The config after one call. -/
def apply_op (c : Config) : Op → Config
  | Op.set s k v => config_set c s k v
  | Op.get s k => (config_get c s k).1
  | Op.load f => read_ini f c
  | Op.save under f => (write_ini under f c).2

/-- The config after a sequence of calls on a freshly constructed config. -/
def run (ops : List Op) : Config := ops.foldl apply_op empty_config

/-- The lines that a flush of the section appends, without their line
endings: one `key = value` line for each dirty value, in iteration order. -/
def value_lines (m : umap Attribute) : List Str :=
  (m.filter fun p => p.2.update_).map fun p => p.1 ++ [' ', '=', ' '] ++ p.2.value_

/-- The lines that `output_section` appends for a dirty section, without their
line endings: the header when a name is given, then the value lines. -/
def new_lines (sect : Section) (name : Str) : List Str :=
  (if name.length ≠ 0 then [['['] ++ name ++ [']']] else []) ++ value_lines sect.value_

/-- The given lines, each followed by the line ending `endl`. -/
def with_endl (endl : Str) (ls : List Str) : Str := (ls.map fun l => l ++ endl).flatten

/-- The bytes of a last line that is not closed by a newline. -/
def Line.open_text (l : Line) : Str := l.front ++ l.middle ++ l.gap ++ l.comment

/-- What follows the newline-terminated lines of a file: only whitespace
(possibly nothing), or a last line that has no newline. -/
inductive Tail where
  | blank (ws : Str)
  | last (l : Line)

/-- The bytes of the tail. -/
def Tail.text : Tail → Str
  | Tail.blank ws => ws
  | Tail.last l => l.open_text

/-- The tail is what its constructor says: whitespace, or a well-formed line. -/
def Tail.wf : Tail → Bool
  | Tail.blank ws => ws.all isspace
  | Tail.last l => l.wf

/-- Section `t` holds every key of section `s` with the same text (the flags
may differ). -/
def keeps_values (s t : Section) : Prop :=
  ∀ k a, umap_find s.value_ k = some a → ∃ b, umap_find t.value_ k = some ⟨a.value_, b⟩

/-- The conversion `(int)npos` of an offset to the 32-bit `int`: the low 32
bits read as a two's complement number (`2147483648` is `2^31`,
`4294967296` is `2^32`). -/
def to_int (n : Nat) : Int := (((n + 2147483648) % 4294967296 : Nat) : Int) - 2147483648

/-- The conversion of the `int` to the 64-bit `std::size_t` that the
expression `end == -1 ? npos : end` applies to `end`
(`18446744073709551616` is `2^64`). -/
def to_size (e : Int) : Nat := (e % 18446744073709551616).toNat

/-- Second loop of `fetch_line` with `int end` as the 32-bit integer it is:
`end = (int)npos` keeps the low 32 bits of the offset, and `-1` means unset. -/
def scan_line_int (data : Str) : Nat → Nat → Int → Bool → Nat × Int
  | 0, npos, e, _ => (npos, e)
  | fuel + 1, npos, e, comment =>
    if npos < data.length && at_ data npos != '\n' then
      if isspace (at_ data npos) then
        scan_line_int data fuel (npos + 1) (if e = -1 then to_int npos else e) comment
      else if at_ data npos == ';' || at_ data npos == '#' then
        scan_line_int data fuel (npos + 1) (if e = -1 then to_int npos else e) true
      else if !comment then
        scan_line_int data fuel (npos + 1) (-1) comment
      else
        scan_line_int data fuel (npos + 1) e comment
    else (npos, e)

/-- Function `fetch_line` with `int end` as the 32-bit integer it is.  The two
`assign` calls take the range from `&data[begin]` to `&data[cut]` and from
`&data[cut]` to `&data[npos + 1]`, where `cut` is `end == -1 ? npos : end` as a
`std::size_t`.  When `cut` does not lie between `begin` and `npos` the first
range is reversed or leaves the buffer: the behaviour is undefined (the
library throws `std::length_error`), and the result is `none`.  On buffers
of at most `2^31` bytes this is `fetch_line` (`fetch_line_int_exact`). -/
def fetch_line_int (data : Str) (npos : Nat) (middle back : Str) : Option Fetched :=
  let start := npos
  let npos := skip_space data (data.length - npos) npos
  let front := bytes data start npos
  if npos ≥ data.length then some ⟨npos, front, middle, back⟩
  else
    let start := npos
    let r := scan_line_int data (data.length - npos) npos (-1) false
    let cut := if r.2 = -1 then r.1 else to_size r.2
    if start ≤ cut ∧ cut ≤ r.1 then
      some ⟨r.1, front, bytes data start cut, bytes data cut (r.1 + 1)⟩
    else none

/-- The `int` that holds `end`: `-1` when unset, else the offset. -/
def end_int : Option Nat → Int
  | none => -1
  | some q => (q : Int)

/-- The state of `write_ini` in front of its final loop over the sections. -/
def write_scan (under : Nat → Char) (data : Str) (conf : Config) : WState :=
  flush_last under (write_loop under data data.length ⟨0, [], [], [], [], [], conf⟩)

/-- The bytes `write_ini` writes when its final loop iterates the sections in
the order `order` (the container fixes no order; `write_ini` is the case where
`order` is the list of the config). -/
def write_ini_in (under : Nat → Char) (data : Str) (conf : Config) (order : umap Section) :
    Str :=
  (output_all under order (write_scan under data conf).output (write_scan under data conf).endl).1

/-- The config is a map: no two sections have the same name. -/
def names_nodup (c : Config) : Prop := (c.value_.map Prod.fst).Nodup

end parser

end ini

/-! ## Theorems -/

namespace ini

namespace container

theorem umap_find_assign_self {T : Type} (m : umap T) (k : Str) (x v : T)
    (h : umap_find m k = some x) : umap_find (umap_assign m k v) k = some v := by
  induction m with
  | nil => simp [umap_find] at h
  | cons hd tl ih =>
    obtain ⟨k0, x0⟩ := hd
    by_cases hk : k0 = k
    · simp [umap_find, umap_assign, hk]
    · simp [umap_find, hk] at h
      simp [umap_find, umap_assign, hk, ih h]

theorem umap_find_assign_ne {T : Type} (m : umap T) (k k' : Str) (v : T)
    (h : k' ≠ k) : umap_find (umap_assign m k v) k' = umap_find m k' := by
  induction m with
  | nil => simp [umap_find, umap_assign]
  | cons hd tl ih =>
    obtain ⟨k0, x0⟩ := hd
    by_cases hk : k0 = k
    · subst hk
      have : ¬ k0 = k' := fun e => h e.symm
      simp [umap_find, umap_assign, this]
    · by_cases hk' : k0 = k'
      · subst hk'
        simp [umap_find, umap_assign, hk]
      · simp [umap_find, umap_assign, hk, hk', ih]

theorem umap_find_append {T : Type} (m n : umap T) (k : Str) :
    umap_find (m ++ n) k =
      match umap_find m k with
      | some x => some x
      | none => umap_find n k := by
  induction m with
  | nil => simp [umap_find]
  | cons hd tl ih =>
    obtain ⟨k0, x0⟩ := hd
    by_cases hk : k0 = k
    · simp [umap_find, hk]
    · simp [umap_find, hk, ih]

theorem umap_find_emplace_self {T : Type} (m : umap T) (k : Str) (v : T)
    (h : umap_find m k = none) : umap_find (umap_emplace m k v) k = some v := by
  simp [umap_emplace, h, umap_find_append, umap_find]

theorem umap_find_emplace_ne {T : Type} (m : umap T) (k k' : Str) (v : T)
    (h : k' ≠ k) : umap_find (umap_emplace m k v) k' = umap_find m k' := by
  unfold umap_emplace
  cases hf : umap_find m k with
  | some x => rfl
  | none =>
    have : ¬ k = k' := fun e => h e.symm
    simp only [umap_find_append]
    cases umap_find m k' <;> simp [umap_find, this]

theorem getter_find_self {T : Type} [Inhabited T] (c : collections T) (k : Str) :
    umap_find (getter c k).1.value_ k = some (getter c k).2 := by
  unfold getter
  cases hf : umap_find c.value_ k with
  | some x => simpa using hf
  | none => simpa using umap_find_emplace_self c.value_ k default hf

theorem getter_find_ne {T : Type} [Inhabited T] (c : collections T) (k k' : Str)
    (h : k' ≠ k) : umap_find (getter c k).1.value_ k' = umap_find c.value_ k' := by
  unfold getter
  cases hf : umap_find c.value_ k with
  | some x => rfl
  | none => simpa using umap_find_emplace_ne c.value_ k k' default h

theorem getter_update {T : Type} [Inhabited T] (c : collections T) (k : Str) :
    (getter c k).1.update_ = c.update_ := by
  unfold getter
  cases hf : umap_find c.value_ k <;> rfl

theorem store_find_self {T : Type} (c : collections T) (k : Str) (x v : T)
    (h : umap_find c.value_ k = some x) : umap_find (store c k v).value_ k = some v :=
  umap_find_assign_self c.value_ k x v h

theorem store_find_ne {T : Type} (c : collections T) (k k' : Str) (v : T) (h : k' ≠ k) :
    umap_find (store c k v).value_ k' = umap_find c.value_ k' :=
  umap_find_assign_ne c.value_ k k' v h

theorem setter_find_self {T : Type} (c : collections T) (k : Str) (v : T) :
    umap_find (setter c k v).value_ k = some v := by
  unfold setter
  cases hf : umap_find c.value_ k with
  | some x => simpa using umap_find_assign_self c.value_ k x v hf
  | none => simpa using umap_find_emplace_self c.value_ k v hf

theorem setter_find_ne {T : Type} (c : collections T) (k k' : Str) (v : T) (h : k' ≠ k) :
    umap_find (setter c k v).value_ k' = umap_find c.value_ k' := by
  unfold setter
  cases hf : umap_find c.value_ k with
  | some x => simpa using umap_find_assign_ne c.value_ k k' v h
  | none => simpa using umap_find_emplace_ne c.value_ k k' v h

end container

namespace parser

open container

theorem config_set_find (c : Config) (s k v : Str) :
    umap_find (config_set c s k v).value_ s =
      some { setter (getter c s).2 k ⟨v, true⟩ with update_ := true } := by
  unfold config_set
  exact store_find_self _ _ _ _ (getter_find_self c s)

theorem config_get_value (c : Config) (s k : Str) :
    (config_get c s k).2 =
      match attr_at c s k with
      | some a => a.value_
      | none => [] := by
  unfold config_get attr_at getter
  cases hs : umap_find c.value_ s with
  | none => simp [umap_find]; rfl
  | some S =>
    cases hk : umap_find S.value_ k with
    | none => simp [hk]; rfl
    | some a => simp [hk]

/-- C9: after `set(s,k,v)` on any config, `get(s,k)` returns `v`, and the
stored value as well as section `s` carry a true dirty flag, whether or not the
section or the key existed before. -/
theorem set_contract (c : Config) (s k v : Str) :
    (config_get (config_set c s k v) s k).2 = v ∧
    ∃ S, umap_find (config_set c s k v).value_ s = some S ∧ S.update_ = true ∧
      umap_find S.value_ k = some ⟨v, true⟩ := by
  have hf := config_set_find c s k v
  have ha : attr_at (config_set c s k v) s k = some ⟨v, true⟩ := by
    unfold attr_at
    rw [hf]
    exact setter_find_self _ _ _
  refine ⟨?_, _, hf, rfl, setter_find_self _ _ _⟩
  rw [config_get_value, ha]

theorem attr_at_store_ne (c : Config) (sn s k : Str) (S : Section) (h : s ≠ sn) :
    attr_at (store c sn S) s k = attr_at c s k := by
  unfold attr_at
  rw [store_find_ne c sn s S h]

theorem attr_at_getter_ne (c : Config) (sn s k : Str) (h : s ≠ sn) :
    attr_at (getter c sn).1 s k = attr_at c s k := by
  unfold attr_at
  rw [getter_find_ne c sn s h]

theorem attr_at_store_self (c : Config) (s k : Str) (S : Section) :
    attr_at (store (getter c s).1 s S) s k = umap_find S.value_ k := by
  unfold attr_at
  rw [store_find_self _ _ _ _ (getter_find_self c s)]
  rfl

theorem getter_snd_of_find {T : Type} [Inhabited T] (c : collections T) (k : Str) (x : T)
    (h : umap_find c.value_ k = some x) : getter c k = (c, x) := by
  unfold getter
  rw [h]

/-- An attribute that is dirty survives whatever `read_ini` does with one line. -/
theorem read_line_keeps_dirty (sn : Str) (conf : Config) (middle s k v : Str)
    (h : attr_at conf s k = some ⟨v, true⟩) :
    attr_at (read_line sn conf middle).2 s k = some ⟨v, true⟩ := by
  unfold read_line
  split
  · exact h
  split
  · exact h
  split
  · simp only
    by_cases hs : s = sn
    · subst hs
      rw [attr_at_store_self]
      unfold attr_at at h
      cases hS : umap_find conf.value_ s with
      | none => simp [hS] at h
      | some S =>
        simp [hS] at h
        rw [getter_snd_of_find conf s S hS]
        by_cases hk : key_of middle = k
        · rw [hk, getter_snd_of_find S k _ h]
          simpa using h
        · have hk' : k ≠ key_of middle := fun e => hk e.symm
          split
          · rw [store_find_ne _ _ _ _ hk', getter_find_ne _ _ _ hk']
            exact h
          · rw [getter_find_ne _ _ _ hk']
            exact h
    · rw [attr_at_store_ne _ _ _ _ _ hs, attr_at_getter_ne _ _ _ _ hs]
      exact h
  · exact h

theorem read_loop_keeps_dirty (data s k v : Str) (fuel : Nat) (st : RState)
    (h : attr_at st.conf s k = some ⟨v, true⟩) :
    attr_at (read_loop data fuel st).conf s k = some ⟨v, true⟩ := by
  induction fuel generalizing st with
  | zero => exact h
  | succ n ih =>
    unfold read_loop
    split
    · apply ih
      exact read_line_keeps_dirty _ _ _ _ _ _ h
    · exact h

/-- C8: a value assigned with `set(s,k,v)` before loading keeps its text and
its dirty flag through `read_ini`, whatever the file contains. -/
theorem dirty_precedence_on_load (f : Str) (c : Config) (s k v : Str) :
    (config_get (read_ini f (config_set c s k v)) s k).2 = v ∧
    attr_at (read_ini f (config_set c s k v)) s k = some ⟨v, true⟩ := by
  have h0 : attr_at (config_set c s k v) s k = some ⟨v, true⟩ := by
    unfold attr_at
    rw [config_set_find]
    exact setter_find_self _ _ _
  have h1 : attr_at (read_ini f (config_set c s k v)) s k = some ⟨v, true⟩ :=
    read_loop_keeps_dirty f s k v f.length ⟨0, [], [], [], config_set c s k v⟩ h0
  refine ⟨?_, h1⟩
  rw [config_get_value, h1]

end parser

theorem at_append_cons (a : Str) (c : Char) (r : Str) : at_ (a ++ c :: r) a.length = c := by
  induction a with
  | nil => rfl
  | cons x a ih => simpa [at_, List.getD] using ih

theorem bytes_mid (data a x r : Str) (b e : Nat) (hd : data = a ++ x ++ r)
    (hb : b = a.length) (he : e = a.length + x.length) : bytes data b e = x := by
  subst hb he hd
  unfold bytes
  rw [List.append_assoc, List.append_assoc, List.drop_left]
  simp

namespace parser

open container

theorem skip_space_run (data : Str) (ws : Str) :
    ∀ (a rest : Str) (fuel npos : Nat), data = a ++ ws ++ rest → npos = a.length →
      (∀ c ∈ ws, isspace c = true) → (∀ c r, rest = c :: r → isspace c = false) →
      ws.length ≤ fuel → skip_space data fuel npos = a.length + ws.length := by
  induction ws with
  | nil =>
    intro a rest fuel npos hd hn _ hr _
    subst hn
    cases fuel with
    | zero => simp [skip_space]
    | succ f =>
      unfold skip_space
      cases rest with
      | nil => simp [hd]
      | cons c r =>
        have : at_ data a.length = c := by rw [hd]; simpa using at_append_cons a c r
        simp [this, hr c r rfl]
  | cons w ws ih =>
    intro a rest fuel npos hd hn hw hr hf
    subst hn
    cases fuel with
    | zero => simp at hf
    | succ f =>
      unfold skip_space
      have h1 : at_ data a.length = w := by
        rw [hd]; simpa using at_append_cons a w (ws ++ rest)
      have h2 : a.length < data.length := by rw [hd]; simp
      have h3 : isspace w = true := hw w (by simp)
      simp only [h1, h2, h3, decide_True, Bool.and_self, if_true]
      rw [ih (a ++ [w]) rest f (a.length + 1) (by simp [hd]) (by simp)
        (fun c hc => hw c (by simp [hc])) hr (by simpa using hf)]
      simp; omega

theorem isspace_newline : isspace '\n' = true := by decide

theorem not_isspace_of_comment (c : Char) (h : is_comment c = true) : isspace c = false := by
  unfold is_comment at h
  simp only [Bool.or_eq_true, beq_iff_eq] at h
  rcases h with h | h <;> subst h <;> decide

theorem scan_step_space (data a : Str) (c : Char) (r : Str) (fuel npos : Nat)
    (e : Option Nat) (cm : Bool) (hd : data = a ++ c :: r) (hn : npos = a.length)
    (hs : isspace c = true) (hc : c ≠ '\n') :
    scan_line data (fuel + 1) npos e cm =
      scan_line data fuel (npos + 1) (if e = none then some npos else e) cm := by
  subst hn
  have h1 : at_ data a.length = c := by rw [hd]; exact at_append_cons a c r
  have h2 : a.length < data.length := by rw [hd]; simp
  rw [scan_line]
  simp [h1, h2, hs, hc]

theorem scan_step_comment (data a : Str) (c : Char) (r : Str) (fuel npos : Nat)
    (e : Option Nat) (cm : Bool) (hd : data = a ++ c :: r) (hn : npos = a.length)
    (hs : is_comment c = true) :
    scan_line data (fuel + 1) npos e cm =
      scan_line data fuel (npos + 1) (if e = none then some npos else e) true := by
  subst hn
  have h1 : at_ data a.length = c := by rw [hd]; exact at_append_cons a c r
  have h2 : a.length < data.length := by rw [hd]; simp
  have h3 : isspace c = false := not_isspace_of_comment c hs
  have h4 : c ≠ '\n' := by
    intro h; rw [h] at h3; simp [isspace_newline] at h3
  have h5 : (c == ';' || c == '#') = true := hs
  rw [scan_line]
  simp [h1, h2, h3, h4, h5]

theorem scan_step_plain (data a : Str) (c : Char) (r : Str) (fuel npos : Nat)
    (e : Option Nat) (cm : Bool) (hd : data = a ++ c :: r) (hn : npos = a.length)
    (hs : isspace c = false) (hk : is_comment c = false) :
    scan_line data (fuel + 1) npos e cm =
      scan_line data fuel (npos + 1) (if cm = true then e else none) cm := by
  subst hn
  have h1 : at_ data a.length = c := by rw [hd]; exact at_append_cons a c r
  have h2 : a.length < data.length := by rw [hd]; simp
  have h4 : c ≠ '\n' := by
    intro h; rw [h] at hs; simp [isspace_newline] at hs
  have h5 : (c == ';' || c == '#') = false := hk
  rw [scan_line]
  cases cm <;> simp [h1, h2, hs, h4, h5]

theorem scan_stop (data a rest : Str) (fuel npos : Nat) (e : Option Nat) (cm : Bool)
    (hd : data = a ++ '\n' :: rest) (hn : npos = a.length) :
    scan_line data fuel npos e cm = (npos, e) := by
  subst hn
  have h1 : at_ data a.length = '\n' := by rw [hd]; exact at_append_cons a '\n' rest
  cases fuel with
  | zero => rfl
  | succ f =>
    unfold scan_line
    simp [h1]

theorem scan_middle (data : Str) (m : Str) :
    ∀ (a rest : Str) (fuel npos : Nat) (e : Option Nat), data = a ++ m ++ rest →
      npos = a.length → (∀ c ∈ m, is_comment c = false ∧ c ≠ '\n') → m ≠ [] →
      (∀ c, m.getLast? = some c → isspace c = false) → m.length ≤ fuel →
      scan_line data fuel npos e false =
        scan_line data (fuel - m.length) (a.length + m.length) none false := by
  induction m with
  | nil => intro a rest fuel npos e _ _ _ h; exact absurd rfl h
  | cons c m ih =>
    intro a rest fuel npos e hd hn hm _ hl hf
    cases fuel with
    | zero => simp at hf
    | succ f =>
      have hd1 : data = a ++ c :: (m ++ rest) := by simp [hd]
      have hd2 : data = (a ++ [c]) ++ m ++ rest := by simp [hd]
      have hlen : (a ++ [c]).length = npos + 1 := by simp [hn]
      cases m with
      | nil =>
        have hs : isspace c = false := hl c (by simp)
        rw [scan_step_plain data a c _ f npos e false hd1 hn hs (hm c (by simp)).1]
        simp [hn]
      | cons c2 m2 =>
        have hrec := fun e1 => ih (a ++ [c]) rest f (npos + 1) e1 hd2 hlen.symm
          (fun x hx => hm x (by simp [hx])) (by simp)
          (fun x hx => hl x (by simpa using hx)) (by simpa using hf)
        have e2 : f + 1 - (c :: c2 :: m2).length = f - (c2 :: m2).length := by simp
        have e3 : a.length + (c :: c2 :: m2).length = (a ++ [c]).length + (c2 :: m2).length := by
          simp; omega
        rw [e2, e3]
        by_cases hs : isspace c = true
        · rw [scan_step_space data a c _ f npos e false hd1 hn hs (hm c (by simp)).2]
          exact hrec _
        · have hs1 : isspace c = false := by simpa using hs
          rw [scan_step_plain data a c _ f npos e false hd1 hn hs1 (hm c (by simp)).1]
          exact hrec _

theorem scan_gap (data : Str) (g : Str) :
    ∀ (a rest : Str) (fuel npos : Nat) (e : Option Nat) (cm : Bool), data = a ++ g ++ rest →
      npos = a.length → (∀ c ∈ g, isspace c = true ∧ c ≠ '\n') → g.length ≤ fuel →
      scan_line data fuel npos e cm =
        scan_line data (fuel - g.length) (a.length + g.length)
          (if g = [] then e else if e = none then some npos else e) cm := by
  induction g with
  | nil => intro a rest fuel npos e cm _ hn _ _; simp [hn]
  | cons c g ih =>
    intro a rest fuel npos e cm hd hn hg hf
    cases fuel with
    | zero => simp at hf
    | succ f =>
      have hd1 : data = a ++ c :: (g ++ rest) := by simp [hd]
      have hd2 : data = (a ++ [c]) ++ g ++ rest := by simp [hd]
      have hlen : (a ++ [c]).length = npos + 1 := by simp [hn]
      rw [scan_step_space data a c _ f npos e cm hd1 hn (hg c (by simp)).1 (hg c (by simp)).2]
      rw [ih (a ++ [c]) rest f (npos + 1) _ cm hd2 hlen.symm
        (fun x hx => hg x (by simp [hx])) (by simpa using hf)]
      have e2 : f + 1 - (c :: g).length = f - g.length := by simp
      have e3 : a.length + (c :: g).length = (a ++ [c]).length + g.length := by
        simp; omega
      rw [e2, e3]
      congr 1
      cases e <;> cases g <;> simp

theorem scan_tail (data : Str) (t : Str) :
    ∀ (a rest : Str) (fuel npos x : Nat), data = a ++ t ++ rest →
      npos = a.length → (∀ c ∈ t, c ≠ '\n') → t.length ≤ fuel →
      scan_line data fuel npos (some x) true =
        scan_line data (fuel - t.length) (a.length + t.length) (some x) true := by
  induction t with
  | nil => intro a rest fuel npos x _ hn _ _; simp [hn]
  | cons c t ih =>
    intro a rest fuel npos x hd hn ht hf
    cases fuel with
    | zero => simp at hf
    | succ f =>
      have hd1 : data = a ++ c :: (t ++ rest) := by simp [hd]
      have hd2 : data = (a ++ [c]) ++ t ++ rest := by simp [hd]
      have hlen : (a ++ [c]).length = npos + 1 := by simp [hn]
      have hrec := ih (a ++ [c]) rest f (npos + 1) x hd2 hlen.symm
          (fun y hy => ht y (by simp [hy])) (by simpa using hf)
      have e2 : f + 1 - (c :: t).length = f - t.length := by simp
      have e3 : a.length + (c :: t).length = (a ++ [c]).length + t.length := by
        simp; omega
      rw [e2, e3]
      by_cases hs : isspace c = true
      · rw [scan_step_space data a c _ f npos _ true hd1 hn hs (ht c (by simp))]
        simpa using hrec
      · have hs1 : isspace c = false := by simpa using hs
        by_cases hk : is_comment c = true
        · rw [scan_step_comment data a c _ f npos _ true hd1 hn hk]
          simpa using hrec
        · have hk1 : is_comment c = false := by simpa using hk
          rw [scan_step_plain data a c _ f npos _ true hd1 hn hs1 hk1]
          simpa using hrec

theorem scan_comment (data : Str) (t : Str) (a rest : Str) (fuel npos : Nat)
    (e : Option Nat) (cm : Bool) (hd : data = a ++ t ++ rest) (hn : npos = a.length)
    (ht : ∀ c ∈ t, c ≠ '\n') (hh : ∀ c, t.head? = some c → is_comment c = true)
    (hf : t.length ≤ fuel) :
    scan_line data fuel npos e cm =
      scan_line data (fuel - t.length) (a.length + t.length)
        (if t = [] then e else if e = none then some npos else e)
        (if t = [] then cm else true) := by
  cases t with
  | nil => simp [hn]
  | cons c t =>
    cases fuel with
    | zero => simp at hf
    | succ f =>
      have hd1 : data = a ++ c :: (t ++ rest) := by simp [hd]
      have hd2 : data = (a ++ [c]) ++ t ++ rest := by simp [hd]
      have hlen : (a ++ [c]).length = npos + 1 := by simp [hn]
      rw [scan_step_comment data a c _ f npos e cm hd1 hn (hh c (by simp))]
      have e2 : f + 1 - (c :: t).length = f - t.length := by simp
      have e3 : a.length + (c :: t).length = (a ++ [c]).length + t.length := by
        simp; omega
      rw [e2, e3]
      have hrec := fun x => scan_tail data t (a ++ [c]) rest f (npos + 1) x hd2 hlen.symm
          (fun y hy => ht y (by simp [hy])) (by simpa using hf)
      cases e with
      | none => simpa using hrec npos
      | some x => simpa using hrec x

theorem scan_content (data a middle gap comment rest : Str) (fuel : Nat)
    (hd : data = a ++ middle ++ gap ++ comment ++ '\n' :: rest)
    (hm : ∀ c ∈ middle, is_comment c = false ∧ c ≠ '\n')
    (hl : ∀ c, middle.getLast? = some c → isspace c = false)
    (hg : ∀ c ∈ gap, isspace c = true ∧ c ≠ '\n')
    (hc : ∀ c ∈ comment, c ≠ '\n')
    (hch : ∀ c, comment.head? = some c → is_comment c = true)
    (hf : middle.length + gap.length + comment.length ≤ fuel) :
    scan_line data fuel a.length none false =
      ((a ++ middle ++ gap ++ comment).length,
        if gap ++ comment = [] then none else some (a ++ middle).length) := by
  have s1 : scan_line data fuel a.length none false =
      scan_line data (fuel - middle.length) (a ++ middle).length none false := by
    by_cases hmn : middle = []
    · subst hmn; simp
    · rw [scan_middle data middle a (gap ++ comment ++ '\n' :: rest) fuel a.length none
        (by simp [hd]) rfl hm hmn hl (by omega)]
      simp
  have s2 := scan_gap data gap (a ++ middle) (comment ++ '\n' :: rest) (fuel - middle.length)
    (a ++ middle).length none false (by simp [hd]) rfl hg (by omega)
  have s3 := fun e => scan_comment data comment (a ++ middle ++ gap) ('\n' :: rest)
    (fuel - middle.length - gap.length) (a ++ middle ++ gap).length e false
    (by simp [hd]) rfl hc hch (by omega)
  have s4 := fun f e cm => scan_stop data (a ++ middle ++ gap ++ comment) rest f
    (a ++ middle ++ gap ++ comment).length e cm (by simp [hd]) rfl
  rw [s1, s2]
  have l2 : (a ++ middle).length + gap.length = (a ++ middle ++ gap).length := by
    (simp; try omega)
  rw [l2, s3]
  have l3 : (a ++ middle ++ gap).length + comment.length
      = (a ++ middle ++ gap ++ comment).length := by (simp; try omega)
  rw [l3, s4]
  congr 1
  cases gap <;> cases comment <;> simp

/-- The scanner on a well-formed line: whatever precedes and follows it in the
buffer, `fetch_line` returns the offset of the line's newline and its parts. -/
theorem fetch_line_parts (data pre front middle gap comment rest m b : Str)
    (hd : data = pre ++ front ++ middle ++ gap ++ comment ++ '\n' :: rest)
    (hfr : ∀ c ∈ front, isspace c = true)
    (hm : ∀ c ∈ middle, is_comment c = false ∧ c ≠ '\n')
    (hh : ∀ c, (middle ++ gap ++ comment).head? = some c → isspace c = false)
    (hne : middle ++ gap ++ comment ≠ [])
    (hl : ∀ c, middle.getLast? = some c → isspace c = false)
    (hg : ∀ c ∈ gap, isspace c = true ∧ c ≠ '\n')
    (hc : ∀ c ∈ comment, c ≠ '\n')
    (hch : ∀ c, comment.head? = some c → is_comment c = true) :
    fetch_line data pre.length m b =
      ⟨(pre ++ front ++ middle ++ gap ++ comment).length, front, middle,
        gap ++ comment ++ ['\n']⟩ := by
  have hlen : data.length = pre.length + front.length + middle.length + gap.length
      + comment.length + 1 + rest.length := by
    rw [hd]; simp; omega
  have k1 : skip_space data (data.length - pre.length) pre.length
      = pre.length + front.length := by
    apply skip_space_run data front pre (middle ++ gap ++ comment ++ '\n' :: rest) _ _
      (by simp [hd]) rfl hfr
    · intro c r hr
      apply hh c
      cases hx : middle ++ gap ++ comment with
      | nil => exact absurd hx hne
      | cons y ys =>
        have : middle ++ gap ++ comment ++ '\n' :: rest = y :: (ys ++ '\n' :: rest) := by
          rw [hx]; rfl
        rw [this] at hr
        simp at hr
        simp [hr.1]
    · omega
  have k2 : ¬ (pre.length + front.length ≥ data.length) := by omega
  have k3 := scan_content data (pre ++ front) middle gap comment rest
    (data.length - (pre.length + front.length)) hd hm hl hg hc hch (by omega)
  have k3l : (pre ++ front).length = pre.length + front.length := by simp
  rw [k3l] at k3
  unfold fetch_line
  simp only [k1, k2, if_false, k3]
  have b1 : bytes data pre.length (pre.length + front.length) = front :=
    bytes_mid data pre front (middle ++ gap ++ comment ++ '\n' :: rest) _ _
      (by simp [hd]) rfl rfl
  have cut : (match (if gap ++ comment = [] then none else some (pre ++ front ++ middle).length)
      with
      | none => (pre ++ front ++ middle ++ gap ++ comment).length
      | some e => e) = (pre ++ front ++ middle).length := by
    by_cases hgc : gap ++ comment = []
    · have hg0 : gap = [] := (List.append_eq_nil.mp hgc).1
      have hc0 : comment = [] := (List.append_eq_nil.mp hgc).2
      simp [hg0, hc0]
    · simp [hgc]
  have b2 : bytes data (pre.length + front.length) (pre ++ front ++ middle).length = middle :=
    bytes_mid data (pre ++ front) middle (gap ++ comment ++ '\n' :: rest) _ _
      (by simp [hd]) (by simp) (by (simp; try omega))
  have b3 : bytes data (pre ++ front ++ middle).length
      ((pre ++ front ++ middle ++ gap ++ comment).length + 1) = gap ++ comment ++ ['\n'] :=
    bytes_mid data (pre ++ front ++ middle) (gap ++ comment ++ ['\n']) rest _ _
      (by simp [hd]) rfl (by (simp; try omega))
  rw [cut, b1, b2, b3]

theorem Line.wf_parts (l : Line) (h : l.wf = true) :
    (∀ c ∈ l.front, isspace c = true) ∧
    (∀ c ∈ l.middle, is_comment c = false ∧ c ≠ '\n') ∧
    (∀ c, (l.middle ++ l.gap ++ l.comment).head? = some c → isspace c = false) ∧
    (l.middle ++ l.gap ++ l.comment ≠ []) ∧
    (∀ c, l.middle.getLast? = some c → isspace c = false) ∧
    (∀ c ∈ l.gap, isspace c = true ∧ c ≠ '\n') ∧
    (∀ c ∈ l.comment, c ≠ '\n') ∧
    (∀ c, l.comment.head? = some c → is_comment c = true) := by
  unfold Line.wf at h
  simp only [Bool.and_eq_true, List.all_eq_true] at h
  obtain ⟨⟨⟨⟨⟨⟨h1, h2⟩, h3⟩, h4⟩, h5⟩, h6⟩, h7⟩ := h
  refine ⟨h1, ?_, ?_, ?_, ?_, ?_, ?_, ?_⟩
  · intro c hc
    have := h2 c hc
    simpa using this
  · intro c hc
    cases hm : l.middle with
    | nil =>
      rw [hm] at h3
      simp only [List.head?_nil, Bool.and_eq_true, List.isEmpty_iff] at h3
      rw [hm, h3.1] at hc
      simp only [List.nil_append] at hc
      rw [hc] at h7
      exact not_isspace_of_comment c h7
    | cons x xs =>
      rw [hm] at h3 hc
      simp at hc
      simp at h3
      rw [← hc]; exact h3
  · intro hnil
    have hm : l.middle = [] := by
      cases hm : l.middle with
      | nil => rfl
      | cons x xs => rw [hm] at hnil; simp at hnil
    have hc : l.comment = [] := by
      cases hc : l.comment with
      | nil => rfl
      | cons x xs => rw [hc] at hnil; simp at hnil
    rw [hm] at h3
    simp [hc] at h3
  · intro c hc
    rw [hc] at h4
    simpa using h4
  · intro c hc
    have := h5 c hc
    simpa using this
  · intro c hc
    have := h6 c hc
    simpa using this
  · intro c hc
    rw [hc] at h7
    exact h7

theorem Line.text_length (l : Line) :
    l.text.length = l.front.length + l.middle.length + l.gap.length + l.comment.length + 1 := by
  simp [Line.text, Line.back]; omega

/-- On a buffer that holds a well-formed line at the scan position,
`fetch_line` returns that line's parts and the offset of its newline. -/
theorem fetch_line_line (data pre rest m b : Str) (l : Line) (hwf : l.wf = true)
    (hd : data = pre ++ l.text ++ rest) :
    fetch_line data pre.length m b =
      ⟨(pre ++ l.text).length - 1, l.front, l.middle, l.back⟩ := by
  obtain ⟨h1, h2, h3, h4, h5, h6, h7, h8⟩ := Line.wf_parts l hwf
  have := fetch_line_parts data pre l.front l.middle l.gap l.comment rest m b
    (by simp [hd, Line.text, Line.back]) h1 h2 h3 h4 h5 h6 h7 h8
  rw [this]
  have e : (pre ++ l.text).length - 1
      = (pre ++ l.front ++ l.middle ++ l.gap ++ l.comment).length := by
    simp [Line.text_length]; omega
  rw [e]
  rfl

theorem Line.text_pos (l : Line) : 0 < l.text.length := by
  rw [Line.text_length]; omega

theorem length_le_render (ls : List Line) : ls.length ≤ (render ls).length := by
  induction ls with
  | nil => simp
  | cons l ls ih =>
    have := Line.text_pos l
    simp [render]; omega

theorem read_loop_done (data : Str) (fuel : Nat) (st : RState) (h : data.length ≤ st.npos) :
    read_loop data fuel st = st := by
  cases fuel with
  | zero => rfl
  | succ f =>
    rw [read_loop]
    simp [Nat.not_lt.mpr h]

theorem write_loop_done (under : Nat → Char) (data : Str) (fuel : Nat) (st : WState)
    (h : data.length ≤ st.npos) : write_loop under data fuel st = st := by
  cases fuel with
  | zero => rfl
  | succ f =>
    rw [write_loop]
    simp [Nat.not_lt.mpr h]

/-- On a file made of well-formed lines the loop of `write_ini` visits exactly
those lines. -/
theorem write_loop_lines (under : Nat → Char) (data : Str) (ls : List Line) :
    ∀ (pre : Str) (fuel : Nat) (st : WState), data = pre ++ render ls →
      st.npos = pre.length → (∀ l ∈ ls, l.wf = true) → ls.length ≤ fuel →
      write_loop under data fuel st = write_lines under st ls := by
  induction ls with
  | nil =>
    intro pre fuel st hd hn _ _
    rw [write_loop_done under data fuel st (by simp [hd, render, hn])]
    rfl
  | cons l ls ih =>
    intro pre fuel st hd hn hwf hf
    cases fuel with
    | zero => simp at hf
    | succ f =>
      have hlt : st.npos < data.length := by
        have := Line.text_pos l
        rw [hd, hn]; simp [render]; omega
      have hfl := fetch_line_line data pre (render ls) st.middle st.back l
        (hwf l (by simp)) (by simp [hd, render])
      have hb : write_body under data st = write_step under st l := by
        have := Line.text_pos l
        have e : (pre ++ l.text).length - 1 + 1 = pre.length + l.text.length := by
          simp only [List.length_append]; omega
        simp only [write_body, write_step, hn, hfl, e]
      rw [write_loop]
      simp only [hlt, if_true]
      rw [hb, ih (pre ++ l.text) f (write_step under st l) (by simp [hd, render])
        (by simp [write_step, hn]) (fun x hx => hwf x (by simp [hx])) (by simpa using hf)]
      rfl

/-- The writer on a file made of well-formed lines. -/
theorem write_ini_render (under : Nat → Char) (ls : List Line) (conf : Config)
    (hwf : ∀ l ∈ ls, l.wf = true) :
    write_ini under (render ls) conf =
      write_finish under (write_lines under ⟨0, [], [], [], [], [], conf⟩ ls) := by
  unfold write_ini write_finish
  rw [write_loop_lines under (render ls) ls [] _ ⟨0, [], [], [], [], [], conf⟩ rfl rfl hwf
    (length_le_render ls)]

/-- C6 (failing inputs): on the one-byte buffer `a`, which has no newline, the
three parts returned by `fetch_line` hold two bytes, the second being the
terminator stored behind the buffer; and when only whitespace remains, the
early return hands back the caller's previous `middle` and `back`, so the parts
add up to more than the bytes scanned. -/
theorem fetch_line_not_lossless :
    (fetch_line "a".toList 0 [] []).front ++ (fetch_line "a".toList 0 [] []).middle
        ++ (fetch_line "a".toList 0 [] []).back = ['a', NUL] ∧
    (fetch_line "a=1\n\n".toList 4 "a=1".toList "\n".toList).front
        ++ (fetch_line "a=1\n\n".toList 4 "a=1".toList "\n".toList).middle
        ++ (fetch_line "a=1\n\n".toList 4 "a=1".toList "\n".toList).back
      = "\na=1\n".toList := by
  decide

/-- C1 (failing inputs): loading the file `a=1` followed by a blank line and
saving it with no `set` in between writes the line `a=1` twice; doing the same
with the one-byte file `a`, which has no newline, writes a zero byte after it. -/
theorem write_ini_roundtrip_fails (under : Nat → Char) :
    (write_ini under "a=1\n\n".toList (read_ini "a=1\n\n".toList empty_config)).1
      = "a=1\n\na=1\n".toList ∧
    (write_ini under "a".toList (read_ini "a".toList empty_config)).1 = ['a', NUL] :=
  ⟨rfl, rfl⟩

end parser

end ini

namespace ini

namespace container

theorem mem_of_umap_find {T : Type} (m : umap T) (k : Str) (x : T)
    (h : umap_find m k = some x) : (k, x) ∈ m := by
  induction m with
  | nil => simp [umap_find] at h
  | cons hd tl ih =>
    obtain ⟨k0, x0⟩ := hd
    by_cases hk : k0 = k
    · simp [umap_find, hk] at h
      simp [hk, h]
    · simp [umap_find, hk] at h
      simp [ih h]

theorem mem_umap_assign {T : Type} (m : umap T) (k : Str) (v : T) (p : Str × T)
    (h : p ∈ umap_assign m k v) : p ∈ m ∨ p = (k, v) := by
  induction m with
  | nil => simp [umap_assign] at h
  | cons hd tl ih =>
    obtain ⟨k0, x0⟩ := hd
    by_cases hk : k0 = k
    · simp [umap_assign, hk] at h
      rcases h with h | h
      · right; exact h
      · left; simp [h]
    · simp [umap_assign, hk] at h
      rcases h with h | h
      · left; simp [h]
      · rcases ih h with h' | h'
        · left; simp [h']
        · right; exact h'

theorem mem_umap_emplace {T : Type} (m : umap T) (k : Str) (v : T) (p : Str × T)
    (h : p ∈ umap_emplace m k v) : p ∈ m ∨ p = (k, v) := by
  unfold umap_emplace at h
  cases hf : umap_find m k with
  | some x => rw [hf] at h; left; exact h
  | none =>
    rw [hf] at h
    simp at h
    rcases h with h | h
    · left; exact h
    · right; exact h

theorem mem_getter_fst {T : Type} [Inhabited T] (c : collections T) (k : Str) (p : Str × T)
    (h : p ∈ (getter c k).1.value_) : p ∈ c.value_ ∨ p = (k, default) := by
  unfold getter at h
  cases hf : umap_find c.value_ k with
  | some x => rw [hf] at h; left; exact h
  | none =>
    rw [hf] at h
    exact mem_umap_emplace _ _ _ _ h

theorem getter_snd_cases {T : Type} [Inhabited T] (c : collections T) (k : Str) :
    (k, (getter c k).2) ∈ c.value_ ∨ (getter c k).2 = default := by
  unfold getter
  cases hf : umap_find c.value_ k with
  | some x => left; exact mem_of_umap_find _ _ _ hf
  | none => right; rfl

theorem mem_store {T : Type} (c : collections T) (k : Str) (v : T) (p : Str × T)
    (h : p ∈ (store c k v).value_) : p ∈ c.value_ ∨ p = (k, v) :=
  mem_umap_assign _ _ _ _ h

end container

namespace parser

open container

theorem attrs_clean_iff (m : umap Attribute) :
    attrs_clean m = true ↔ ∀ p ∈ m, p.2.update_ = false := by
  simp [attrs_clean, List.all_eq_true]

theorem section_clean_iff (s : Section) :
    section_clean s = true ↔ s.update_ = false ∧ ∀ p ∈ s.value_, p.2.update_ = false := by
  simp [section_clean, attrs_clean_iff]

theorem config_clean_iff (c : Config) :
    config_clean c = true ↔ ∀ p ∈ c.value_, section_clean p.2 = true := by
  simp [config_clean, List.all_eq_true]

theorem section_clean_default : section_clean (default : Section) = true := by
  rfl

theorem getter_section_clean (c : Config) (sn : Str) (h : config_clean c = true) :
    section_clean (getter c sn).2 = true ∧ config_clean (getter c sn).1 = true := by
  constructor
  · rcases getter_snd_cases c sn with h1 | h1
    · exact (config_clean_iff c).mp h _ h1
    · rw [h1]; exact section_clean_default
  · rw [config_clean_iff]
    intro p hp
    rcases mem_getter_fst c sn p hp with h1 | h1
    · exact (config_clean_iff c).mp h _ h1
    · rw [h1]; exact section_clean_default

theorem store_config_clean (c : Config) (sn : Str) (s : Section) (h : config_clean c = true)
    (hs : section_clean s = true) : config_clean (store c sn s) = true := by
  rw [config_clean_iff]
  intro p hp
  rcases mem_store c sn s p hp with h1 | h1
  · exact (config_clean_iff c).mp h _ h1
  · rw [h1]; exact hs

theorem getter_attr_clean (s : Section) (key : Str) (h : section_clean s = true) :
    (getter s key).2.update_ = false ∧ section_clean (getter s key).1 = true := by
  rw [section_clean_iff] at h
  constructor
  · rcases getter_snd_cases s key with h1 | h1
    · exact h.2 _ h1
    · rw [h1]; rfl
  · rw [section_clean_iff]
    constructor
    · rw [getter_update]; exact h.1
    · intro p hp
      rcases mem_getter_fst s key p hp with h1 | h1
      · exact h.2 _ h1
      · rw [h1]; rfl

theorem store_section_clean (s : Section) (key : Str) (a : Attribute)
    (h : section_clean s = true) (ha : a.update_ = false) :
    section_clean (store s key a) = true := by
  rw [section_clean_iff] at h ⊢
  constructor
  · exact h.1
  · intro p hp
    rcases mem_store s key a p hp with h1 | h1
    · exact h.2 _ h1
    · rw [h1]; exact ha

/-- Loading one line into a config without dirty flags leaves it without dirty flags. -/
theorem read_line_clean (sn : Str) (conf : Config) (middle : Str)
    (h : config_clean conf = true) : config_clean (read_line sn conf middle).2 = true := by
  unfold read_line
  split
  · exact h
  split
  · exact h
  split
  · simp only
    obtain ⟨h1, h2⟩ := getter_section_clean conf sn h
    obtain ⟨h3, h4⟩ := getter_attr_clean (getter conf sn).2 (key_of middle) h1
    apply store_config_clean _ _ _ h2
    simp only [h3, Bool.not_false, if_true]
    exact store_section_clean _ _ _ h4 rfl
  · exact h

theorem read_loop_clean (data : Str) (fuel : Nat) (st : RState)
    (h : config_clean st.conf = true) : config_clean (read_loop data fuel st).conf = true := by
  induction fuel generalizing st with
  | zero => exact h
  | succ n ih =>
    unfold read_loop
    split
    · apply ih
      exact read_line_clean _ _ _ h
    · exact h

/-- A config loaded from any file into a config without dirty flags has no dirty flags. -/
theorem read_ini_clean (data : Str) (conf : Config) (h : config_clean conf = true) :
    config_clean (read_ini data conf) = true :=
  read_loop_clean data data.length ⟨0, [], [], [], conf⟩ h

theorem attr_at_eq_getter (conf : Config) (s k : Str) :
    attr_at conf s k = umap_find (getter conf s).2.value_ k := by
  unfold attr_at getter
  cases umap_find conf.value_ s with
  | none => rfl
  | some S => rfl

theorem config_clean_empty : config_clean empty_config = true := rfl

theorem getter_snd_eq {T : Type} [Inhabited T] (c : collections T) (n : Str) :
    (getter c n).2 = (umap_find c.value_ n).getD default := by
  unfold getter
  cases umap_find c.value_ n <;> rfl

theorem getter_idem_snd {T : Type} [Inhabited T] (c : collections T) (n m : Str) :
    (getter (getter c n).1 m).2 = (getter c m).2 := by
  rw [getter_snd_eq, getter_snd_eq]
  by_cases h : m = n
  · subst h
    rw [getter_find_self, getter_snd_eq]
    rfl
  · rw [getter_find_ne _ _ _ h]

theorem getter_store_snd {T : Type} [Inhabited T] (c : collections T) (n m : Str) (v : T) :
    (getter (store (getter c n).1 n v) m).2 = if m = n then v else (getter c m).2 := by
  rw [getter_snd_eq]
  by_cases h : m = n
  · subst h
    rw [store_find_self _ _ _ _ (getter_find_self c m)]
    simp
  · rw [store_find_ne _ _ _ _ h, getter_find_ne _ _ _ h, ← getter_snd_eq]
    simp [h]

theorem flagged_getter (c : Config) (n : Str) :
    flagged (getter c n).1.value_ = flagged c.value_ := by
  unfold getter
  cases hf : umap_find c.value_ n with
  | some x => rfl
  | none =>
    simp only [umap_emplace, hf, flagged, List.filter_append]
    simp

theorem flagged_assign_on (m : umap Section) (n : Str) (s0 s : Section)
    (hf : umap_find m n = some s0) (h0 : s0.update_ = true) :
    flagged (umap_assign m n s) = flagged_assign (flagged m) n s := by
  induction m with
  | nil => simp [umap_find] at hf
  | cons hd tl ih =>
    obtain ⟨k0, x0⟩ := hd
    by_cases hk : k0 = n
    · simp only [umap_find, hk, if_true, Option.some.injEq] at hf
      subst hf
      cases hs : s.update_ <;>
        simp [umap_assign, hk, flagged, flagged_assign, hs, h0, List.filter_cons]
    · simp only [umap_find, hk, if_false] at hf
      have := ih hf
      unfold flagged at this ⊢
      cases hx : x0.update_ <;>
        simp [umap_assign, hk, flagged_assign, hx, List.filter_cons, this]

theorem flagged_assign_off (m : umap Section) (n : Str) (s0 s : Section)
    (hf : umap_find m n = some s0) (h0 : s0.update_ = false) (hs : s.update_ = false) :
    flagged (umap_assign m n s) = flagged m := by
  induction m with
  | nil => simp [umap_find] at hf
  | cons hd tl ih =>
    obtain ⟨k0, x0⟩ := hd
    by_cases hk : k0 = n
    · simp only [umap_find, hk, if_true, Option.some.injEq] at hf
      subst hf
      simp [umap_assign, hk, flagged, hs, h0, List.filter_cons]
    · simp only [umap_find, hk, if_false] at hf
      have := ih hf
      unfold flagged at this ⊢
      cases hx : x0.update_ <;>
        simp [umap_assign, hk, hx, List.filter_cons, this]

theorem same_view_refl (c : Config) : same_view c c := ⟨fun _ => rfl, rfl⟩

theorem same_view_getter (c d : Config) (n : Str) (h : same_view c d) :
    same_view (getter c n).1 (getter d n).1 := by
  constructor
  · intro m
    rw [getter_idem_snd, getter_idem_snd]
    exact h.1 m
  · rw [flagged_getter, flagged_getter]
    exact h.2

theorem same_view_getter_left (c : Config) (n : Str) : same_view c (getter c n).1 := by
  constructor
  · intro m
    rw [getter_idem_snd]
  · rw [flagged_getter]

/-- Writing back the same section on both sides keeps two configs
indistinguishable, as long as the write does not set a dirty flag. -/
theorem same_view_store (c d : Config) (n : Str) (s : Section) (h : same_view c d)
    (hs : s.update_ = true → (getter c n).2.update_ = true) :
    same_view (store (getter c n).1 n s) (store (getter d n).1 n s) := by
  constructor
  · intro m
    rw [getter_store_snd, getter_store_snd, h.1 m]
  · have e := h.1 n
    have fc := getter_find_self c n
    have fd := getter_find_self d n
    have gc := flagged_getter c n
    have gd := flagged_getter d n
    unfold store
    simp only
    cases h0 : (getter c n).2.update_ with
    | true =>
      rw [flagged_assign_on _ n _ s fc h0, flagged_assign_on _ n _ s fd (e ▸ h0), gc, gd, h.2]
    | false =>
      have hs0 : s.update_ = false := by
        cases hu : s.update_ with
        | false => rfl
        | true => rw [hs hu] at h0; exact absurd h0 (by simp)
      rw [flagged_assign_off _ n _ s fc h0 hs0, flagged_assign_off _ n _ s fd (e ▸ h0) hs0,
        gc, gd, h.2]

theorem output_section_sect_update (under : Nat → Char) (data : Str) (s : Section)
    (endl name : Str) : (output_section under data s endl name).sect.update_ = false := by
  unfold output_section
  cases h : s.update_ <;> simp [h]

theorem flush_last_view (under : Nat → Char) (st tt : WState) (h : same_state st tt) :
    same_state (flush_last under st) (flush_last under tt) := by
  obtain ⟨np, mi, ba, sn, en, ou, c⟩ := st
  obtain ⟨np', mi', ba', sn', en', ou', d⟩ := tt
  obtain ⟨h1, h2, h3, h4, h5, h6, h7⟩ := h
  simp only at h1 h2 h3 h4 h5 h6 h7
  subst h1 h2 h3 h4 h5 h6
  unfold flush_last
  by_cases hs : sn.length ≠ 0
  · simp only [if_pos hs, ← h7.1 sn]
    refine ⟨rfl, rfl, rfl, rfl, rfl, rfl, ?_⟩
    apply same_view_store c d sn _ h7
    intro hu
    rw [output_section_sect_update] at hu
    exact absurd hu (by simp)
  · simp only [if_neg hs]
    exact ⟨rfl, rfl, rfl, rfl, rfl, rfl, h7⟩

theorem write_line_header_flush (under : Nat → Char) (st : WState) :
    (if st.section_name.length ≠ 0 then
        { st with
          output := (output_section under st.output (getter st.conf st.section_name).2
            st.endl []).data,
          endl := (output_section under st.output (getter st.conf st.section_name).2
            st.endl []).endl,
          conf := store (getter st.conf st.section_name).1 st.section_name
            (output_section under st.output (getter st.conf st.section_name).2
              st.endl []).sect }
      else st) = flush_last under st := rfl

/-- The body of the writer's loop cannot tell two indistinguishable configs apart. -/
theorem write_line_view (under : Nat → Char) (st tt : WState) (m : Str)
    (h : same_state st tt) :
    same_state (write_line under st m) (write_line under tt m) := by
  unfold write_line
  by_cases h1 : m.isEmpty = true
  · simp only [if_pos h1]
    obtain ⟨a1, _, a3, a4, a5, a6, a7⟩ := h
    exact ⟨a1, rfl, a3, a4, a5, a6, a7⟩
  by_cases h2 : is_header m = true
  · simp only [if_neg h1, if_pos h2]
    rw [write_line_header_flush, write_line_header_flush]
    obtain ⟨a1, _, a3, _, a5, a6, a7⟩ := flush_last_view under st tt h
    refine ⟨a1, rfl, a3, ?_, a5, a6, ?_⟩
    · simp only [a7.1 (header_name m)]
    · exact same_view_getter _ _ _ a7
  simp only [if_neg h1, if_neg h2]
  obtain ⟨np, mi, ba, sn, en, ou, c⟩ := st
  obtain ⟨np', mi', ba', sn', en', ou', d⟩ := tt
  obtain ⟨a1, a2, a3, a4, a5, a6, a7⟩ := h
  simp only at a1 a2 a3 a4 a5 a6 a7
  subst a1 a2 a3 a4 a5 a6
  by_cases h3 : sn.length ≠ 0
  · by_cases h4 : '=' ∈ m
    · simp only [if_pos h3, if_pos h4, ← a7.1 sn]
      by_cases h5 : (getter (getter c sn).2 (key_of m)).2.update_ = true
      · simp only [h5, if_true]
        refine ⟨rfl, rfl, rfl, rfl, rfl, rfl, ?_⟩
        apply same_view_store c d sn _ a7
        intro hu
        have : (store (getter (getter c sn).2 (key_of m)).1 (key_of m)
            { (getter (getter c sn).2 (key_of m)).2 with update_ := false }).update_
            = (getter c sn).2.update_ := getter_update _ _
        rw [← this]; exact hu
      · simp only [h5, if_false]
        refine ⟨rfl, rfl, rfl, rfl, rfl, rfl, ?_⟩
        apply same_view_store c d sn _ a7
        intro hu
        rw [← getter_update (getter c sn).2 (key_of m)]; exact hu
    · simp only [if_pos h3, if_neg h4]
      exact ⟨rfl, rfl, rfl, rfl, rfl, rfl, a7⟩
  · simp only [if_neg h3]
    exact ⟨rfl, rfl, rfl, rfl, rfl, rfl, a7⟩

theorem write_body_view (under : Nat → Char) (data : Str) (st tt : WState)
    (h : same_state st tt) :
    same_state (write_body under data st) (write_body under data tt) := by
  have e2 := h.2.1
  have e3 := h.2.2.1
  obtain ⟨a1, a2, a3, a4, a5, a6, a7⟩ := write_line_view under st tt
    (fetch_line data st.npos st.middle st.back).middle h
  unfold write_body
  simp only [← h.1, ← e2, ← e3]
  exact ⟨rfl, a2, rfl, a4, a5, by rw [a6, a2], a7⟩

theorem write_loop_view (under : Nat → Char) (data : Str) (fuel : Nat) :
    ∀ (st tt : WState), same_state st tt →
      same_state (write_loop under data fuel st) (write_loop under data fuel tt) := by
  induction fuel with
  | zero => intro st tt h; exact h
  | succ n ih =>
    intro st tt h
    rw [write_loop, write_loop, ← h.1]
    split
    · exact ih _ _ (write_body_view under data st tt h)
    · exact h

theorem detect_endl_idem (under : Nat → Char) (data endl : Str) :
    detect_endl under data (detect_endl under data endl) = detect_endl under data endl := by
  unfold detect_endl
  by_cases h : endl.isEmpty = true
  · simp only [h, if_true]
    split
    · rfl
    · split
      · split <;> rfl
      · simp [h]
  · simp [h]

theorem output_section_predetect (under : Nat → Char) (data : Str) (s : Section)
    (endl name : Str) :
    output_section under data s (detect_endl under data endl) name
      = output_section under data s endl name := by
  unfold output_section
  simp only [detect_endl_idem]

theorem output_all_predetect (under : Nat → Char) (m : umap Section) (data endl : Str) :
    (output_all under m data (detect_endl under data endl)).1
      = (output_all under m data endl).1 := by
  cases m with
  | nil => rfl
  | cons hd tl =>
    obtain ⟨n, s⟩ := hd
    simp only [output_all, output_section_predetect]

/-- The bytes appended by the final loop of `write_ini` depend only on the
flagged sections. -/
theorem output_all_flagged (under : Nat → Char) (m : umap Section) :
    ∀ (data endl : Str),
      (output_all under m data endl).1 = (output_all under (flagged m) data endl).1 := by
  induction m with
  | nil => intro data endl; rfl
  | cons hd tl ih =>
    intro data endl
    obtain ⟨n, s⟩ := hd
    cases hs : s.update_ with
    | false =>
      have e1 : flagged ((n, s) :: tl) = flagged tl := by simp [flagged, hs]
      have e2 : output_section under data s endl n
          = ⟨data, s, detect_endl under data endl⟩ := by
        simp [output_section, hs]
      rw [e1]
      simp only [output_all, e2]
      rw [output_all_predetect, ih]
    | true =>
      have e1 : flagged ((n, s) :: tl) = (n, s) :: flagged tl := by simp [flagged, hs]
      rw [e1]
      simp only [output_all]
      rw [ih]

theorem write_ini_view (under : Nat → Char) (f : Str) (c d : Config) (h : same_view c d) :
    (write_ini under f c).1 = (write_ini under f d).1 := by
  have h0 : same_state ⟨0, [], [], [], [], [], c⟩ ⟨0, [], [], [], [], [], d⟩ :=
    ⟨rfl, rfl, rfl, rfl, rfl, rfl, h⟩
  obtain ⟨_, _, _, _, a5, a6, a7⟩ :=
    flush_last_view under _ _ (write_loop_view under f f.length _ _ h0)
  unfold write_ini
  simp only
  rw [output_all_flagged, output_all_flagged under
    (flush_last under (write_loop under f f.length ⟨0, [], [], [], [], [], d⟩)).conf.value_,
    a5, a6, a7.2]

theorem umap_find_none_of_keys {T : Type} (A : umap T) (k : Str) (h : ∀ p ∈ A, p.1 ≠ k) :
    umap_find A k = none := by
  induction A with
  | nil => rfl
  | cons hd tl ih =>
    obtain ⟨k0, x0⟩ := hd
    have h0 : k0 ≠ k := h (k0, x0) (by simp)
    simp only [umap_find, h0, if_false]
    exact ih (fun p hp => h p (by simp [hp]))

theorem umap_find_at {T : Type} (A B : umap T) (k : Str) (x : T) (h : ∀ p ∈ A, p.1 ≠ k) :
    umap_find (A ++ (k, x) :: B) k = some x := by
  rw [umap_find_append, umap_find_none_of_keys A k h]
  simp [umap_find]

theorem umap_assign_at {T : Type} (A B : umap T) (k : Str) (x y : T)
    (h : ∀ p ∈ A, p.1 ≠ k) :
    umap_assign (A ++ (k, x) :: B) k y = A ++ (k, y) :: B := by
  induction A with
  | nil => simp [umap_assign]
  | cons hd tl ih =>
    obtain ⟨k0, x0⟩ := hd
    have h0 : k0 ≠ k := h (k0, x0) (by simp)
    have := ih (fun p hp => h p (by simp [hp]))
    simp only [List.cons_append, umap_assign, h0, if_false]
    exact congrArg _ this

theorem focus_find {T : Type} (good P : T → Prop) (m : umap T) (k : Str)
    (h : focus good P m k) : ∃ x, umap_find m k = some x ∧ P x := by
  obtain ⟨A, x, B, e, hA, _, _, hP⟩ := h
  exact ⟨x, by rw [e]; exact umap_find_at A B k x hA, hP⟩

theorem focus_getter_self {T : Type} [Inhabited T] (good P : T → Prop) (c : collections T)
    (k : Str) (h : focus good P c.value_ k) : ∃ x, getter c k = (c, x) ∧ P x := by
  obtain ⟨x, hf, hP⟩ := focus_find good P c.value_ k h
  exact ⟨x, getter_snd_of_find c k x hf, hP⟩

theorem focus_store {T : Type} (good P Q : T → Prop) (c : collections T) (k : Str) (y : T)
    (h : focus good P c.value_ k) (hy : Q y) : focus good Q (store c k y).value_ k := by
  obtain ⟨A, x, B, e, hA, gA, gB, _⟩ := h
  refine ⟨A, y, B, ?_, hA, gA, gB, hy⟩
  unfold store
  simp only [e]
  exact umap_assign_at A B k x y hA

theorem focus_all_good {T : Type} (good : T → Prop) (m : umap T) (k : Str)
    (h : focus good good m k) : ∀ p ∈ m, good p.2 := by
  obtain ⟨A, x, B, e, _, gA, gB, hx⟩ := h
  intro p hp
  rw [e] at hp
  simp only [List.mem_append, List.mem_cons] at hp
  rcases hp with hp | hp | hp
  · exact gA p hp
  · rw [hp]; exact hx
  · exact gB p hp

theorem keys_of_umap_find_none {T : Type} (m : umap T) (k : Str) (h : umap_find m k = none) :
    ∀ p ∈ m, p.1 ≠ k := by
  induction m with
  | nil => intro p hp; simp at hp
  | cons hd tl ih =>
    obtain ⟨k0, x0⟩ := hd
    by_cases hk : k0 = k
    · simp [umap_find, hk] at h
    · simp only [umap_find, hk, if_false] at h
      intro p hp
      simp only [List.mem_cons] at hp
      rcases hp with hp | hp
      · rw [hp]; exact hk
      · exact ih h p hp

theorem output_attrs_clean (endl : Str) (m : umap Attribute) (data : Str)
    (h : attrs_clean m = true) : output_attrs endl m data = (data, m) := by
  induction m generalizing data with
  | nil => rfl
  | cons hd tl ih =>
    obtain ⟨k0, a0⟩ := hd
    simp only [attrs_clean, List.all_cons, Bool.and_eq_true, Bool.not_eq_true'] at h
    have ht : attrs_clean tl = true := h.2
    simp only [output_attrs, h.1, Bool.false_eq_true, if_false, ih data ht]

theorem output_section_clean (under : Nat → Char) (data : Str) (s : Section)
    (endl name : Str) (h : section_clean s = true) :
    output_section under data s endl name = ⟨data, s, detect_endl under data endl⟩ := by
  rw [section_clean_iff] at h
  simp [output_section, h.1]

theorem output_section_hollow (under : Nat → Char) (data : Str) (s : Section)
    (endl : Str) (h : hollow s) :
    (output_section under data s endl []).data = data ∧
    (output_section under data s endl []).endl = detect_endl under data endl ∧
    section_clean (output_section under data s endl []).sect = true := by
  simp only [output_section, h.1, if_true, List.length_nil, ne_eq, not_true_eq_false,
    if_false, output_attrs_clean _ _ _ h.2]
  refine ⟨trivial, trivial, ?_⟩
  simp [section_clean, h.2]

theorem config_clean_of_focus (c : Config) (s : Str)
    (h : focus (fun x => section_clean x = true) (fun x => section_clean x = true) c.value_ s) :
    config_clean c = true := by
  rw [config_clean_iff]
  exact focus_all_good _ c.value_ s h

theorem write_line_header (under : Nat → Char) (st : WState) (m : Str)
    (h : is_section_line m = true) :
    write_line under st m =
      { flush_last under st with
        middle := m,
        conf := (getter (flush_last under st).conf (header_name m)).1,
        section_name :=
          if !(getter (flush_last under st).conf (header_name m)).2.update_ then []
          else header_name m } := by
  simp only [is_section_line, Bool.and_eq_true, Bool.not_eq_true'] at h
  unfold write_line
  simp only [h.1, h.2, Bool.false_eq_true, if_false, if_true]
  rw [write_line_header_flush]

theorem write_line_idle (under : Nat → Char) (st : WState) (m : Str)
    (h : is_section_line m = false) (hs : st.section_name = []) :
    write_line under st m = { st with middle := m } := by
  unfold write_line
  by_cases h1 : m.isEmpty = true
  · simp only [if_pos h1]
  · have h2 : is_header m = false := by
      simpa [is_section_line, h1] using h
    simp [h1, h2, hs]

theorem flush_last_idle (under : Nat → Char) (st : WState) (hs : st.section_name = []) :
    flush_last under st = st := by
  simp [flush_last, hs]

theorem flush_last_hollow (under : Nat → Char) (st : WState) (s : Str)
    (hp : hollow_at st.conf s) (hs : st.section_name = s) (hne : s ≠ []) :
    (flush_last under st).output = st.output ∧
    config_clean (flush_last under st).conf = true := by
  subst hs
  have hl : st.section_name.length ≠ 0 := by
    intro e; exact hne (List.length_eq_zero.mp e)
  obtain ⟨x, hx, hd⟩ := focus_getter_self _ _ st.conf _ hp
  obtain ⟨o1, _, o3⟩ := output_section_hollow under st.output x st.endl hd
  unfold flush_last
  simp only [if_pos hl, hx]
  refine ⟨o1, ?_⟩
  apply config_clean_of_focus _ st.section_name
  exact focus_store _ _ (fun x => section_clean x = true) st.conf _ _ hp o3

theorem flush_last_fields (under : Nat → Char) (st : WState) :
    (flush_last under st).npos = st.npos ∧ (flush_last under st).back = st.back ∧
    (flush_last under st).section_name = st.section_name := by
  unfold flush_last
  split <;> exact ⟨rfl, rfl, rfl⟩

theorem write_step_clean (under : Nat → Char) (st : WState) (l : Line)
    (hc : config_clean st.conf = true) (hs : st.section_name = []) :
    (write_step under st l).output = st.output ++ l.text ∧
    (write_step under st l).section_name = [] ∧
    config_clean (write_step under st l).conf = true ∧
    (write_step under st l).endl = st.endl := by
  unfold write_step
  by_cases h : is_section_line l.middle = true
  · obtain ⟨g1, g2⟩ := getter_section_clean st.conf (header_name l.middle) hc
    rw [section_clean_iff] at g1
    rw [write_line_header under st l.middle h, flush_last_idle under st hs]
    simp [Line.text, g1.1, g2]
  · rw [write_line_idle under st l.middle (by simpa using h) hs]
    simp [Line.text, hs, hc]

theorem flagged_of_clean (m : umap Section) (h : ∀ p ∈ m, section_clean p.2 = true) :
    flagged m = [] := by
  unfold flagged
  rw [List.filter_eq_nil_iff]
  intro p hp
  have := (section_clean_iff p.2).mp (h p hp)
  simp [this.1]

theorem output_all_clean (under : Nat → Char) (c : Config) (data endl : Str)
    (h : config_clean c = true) : (output_all under c.value_ data endl).1 = data := by
  rw [output_all_flagged, flagged_of_clean _ ((config_clean_iff c).mp h)]
  rfl

theorem write_finish_settled (under : Nat → Char) (s : Str) (st : WState)
    (h : settled s st) : (write_finish under st).1 = st.output := by
  unfold write_finish
  rcases h with ⟨hs, hne, hh⟩ | ⟨hs, hc⟩
  · obtain ⟨f1, f2⟩ := flush_last_hollow under st s hh hs hne
    simp only
    rw [output_all_clean under _ _ _ f2, f1]
  · rw [flush_last_idle under st hs]
    simp only
    rw [output_all_clean under _ _ _ hc]

theorem write_lines_clean (under : Nat → Char) (ls : List Line) :
    ∀ (st : WState), config_clean st.conf = true → st.section_name = [] →
      (write_lines under st ls).output = st.output ++ render ls ∧
      (write_lines under st ls).section_name = [] ∧
      config_clean (write_lines under st ls).conf = true := by
  induction ls with
  | nil => intro st hc hs; exact ⟨by simp [write_lines, render], hs, hc⟩
  | cons l ls ih =>
    intro st hc hs
    obtain ⟨a1, a2, a3, _⟩ := write_step_clean under st l hc hs
    obtain ⟨b1, b2, b3⟩ := ih (write_step under st l) a3 a2
    simp only [write_lines, render]
    exact ⟨by rw [b1, a1, List.append_assoc], b2, b3⟩

/-- Where the round trip does hold: a file made of well-formed lines (every
line has content or a comment and ends in a newline) that is loaded and saved
with no `set` in between is written back byte for byte. -/
theorem write_ini_roundtrip_lines (under : Nat → Char) (ls : List Line)
    (hwf : ∀ l ∈ ls, l.wf = true) :
    (write_ini under (render ls) (read_ini (render ls) empty_config)).1 = render ls := by
  have hc := read_ini_clean (render ls) empty_config config_clean_empty
  rw [write_ini_render under ls _ hwf]
  obtain ⟨a1, a2, a3⟩ := write_lines_clean under ls
    ⟨0, [], [], [], [], [], read_ini (render ls) empty_config⟩ hc rfl
  rw [write_finish_settled under [] _ (Or.inr ⟨a2, a3⟩), a1]
  rfl

end parser

end ini

namespace ini

theorem bytes_end (data a x : Str) (b e : Nat) (hd : data = a ++ x)
    (hb : b = a.length) (he : e = a.length + x.length + 1) : bytes data b e = x ++ [NUL] := by
  subst hb he hd
  unfold bytes
  rw [List.append_assoc, List.drop_left]
  have : a.length + x.length + 1 - a.length = (x ++ [NUL]).length := by simp; omega
  rw [this, List.take_length]

namespace parser

open container

theorem scan_end (data : Str) (fuel npos : Nat) (e : Option Nat) (cm : Bool)
    (hn : data.length ≤ npos) : scan_line data fuel npos e cm = (npos, e) := by
  cases fuel with
  | zero => rfl
  | succ f =>
    rw [scan_line]
    simp [Nat.not_lt.mpr hn]

theorem scan_content_end (data a middle gap comment : Str) (fuel : Nat)
    (hd : data = a ++ middle ++ gap ++ comment)
    (hm : ∀ c ∈ middle, is_comment c = false ∧ c ≠ '\n')
    (hl : ∀ c, middle.getLast? = some c → isspace c = false)
    (hg : ∀ c ∈ gap, isspace c = true ∧ c ≠ '\n')
    (hc : ∀ c ∈ comment, c ≠ '\n')
    (hch : ∀ c, comment.head? = some c → is_comment c = true)
    (hf : middle.length + gap.length + comment.length ≤ fuel) :
    scan_line data fuel a.length none false =
      ((a ++ middle ++ gap ++ comment).length,
        if gap ++ comment = [] then none else some (a ++ middle).length) := by
  have s1 : scan_line data fuel a.length none false =
      scan_line data (fuel - middle.length) (a ++ middle).length none false := by
    by_cases hmn : middle = []
    · subst hmn; simp
    · rw [scan_middle data middle a (gap ++ comment) fuel a.length none
        (by simp [hd]) rfl hm hmn hl (by omega)]
      simp
  have s2 := scan_gap data gap (a ++ middle) comment (fuel - middle.length)
    (a ++ middle).length none false (by simp [hd]) rfl hg (by omega)
  have s3 := fun e => scan_comment data comment (a ++ middle ++ gap) []
    (fuel - middle.length - gap.length) (a ++ middle ++ gap).length e false
    (by simp [hd]) rfl hc hch (by omega)
  have s4 := fun f e cm => scan_end data f (a ++ middle ++ gap ++ comment).length e cm
    (by rw [hd])
  rw [s1, s2]
  have l2 : (a ++ middle).length + gap.length = (a ++ middle ++ gap).length := by
    (simp; try omega)
  rw [l2, s3]
  have l3 : (a ++ middle ++ gap).length + comment.length
      = (a ++ middle ++ gap ++ comment).length := by (simp; try omega)
  rw [l3, s4]
  congr 1
  cases gap <;> cases comment <;> simp

/-- The scanner on a last line that has no newline: `back` ends with the
terminator of the buffer and the returned offset is the size of the buffer. -/
theorem fetch_line_parts_end (data pre front middle gap comment m b : Str)
    (hd : data = pre ++ front ++ middle ++ gap ++ comment)
    (hfr : ∀ c ∈ front, isspace c = true)
    (hm : ∀ c ∈ middle, is_comment c = false ∧ c ≠ '\n')
    (hh : ∀ c, (middle ++ gap ++ comment).head? = some c → isspace c = false)
    (hne : middle ++ gap ++ comment ≠ [])
    (hl : ∀ c, middle.getLast? = some c → isspace c = false)
    (hg : ∀ c ∈ gap, isspace c = true ∧ c ≠ '\n')
    (hc : ∀ c ∈ comment, c ≠ '\n')
    (hch : ∀ c, comment.head? = some c → is_comment c = true) :
    fetch_line data pre.length m b =
      ⟨data.length, front, middle, gap ++ comment ++ [NUL]⟩ := by
  have hlen : data.length = pre.length + front.length + middle.length + gap.length
      + comment.length := by
    rw [hd]; simp; omega
  have hpos : 0 < middle.length + gap.length + comment.length := by
    cases hx : middle ++ gap ++ comment with
    | nil => exact absurd hx hne
    | cons y ys =>
      have := congrArg List.length hx
      simp at this
      omega
  have k1 : skip_space data (data.length - pre.length) pre.length
      = pre.length + front.length := by
    apply skip_space_run data front pre (middle ++ gap ++ comment) _ _
      (by simp [hd]) rfl hfr
    · intro c r hr
      apply hh c
      rw [hr]; rfl
    · omega
  have k2 : ¬ (pre.length + front.length ≥ data.length) := by omega
  have k3 := scan_content_end data (pre ++ front) middle gap comment
    (data.length - (pre.length + front.length)) hd hm hl hg hc hch (by omega)
  have k3l : (pre ++ front).length = pre.length + front.length := by simp
  rw [k3l, ← hd] at k3
  unfold fetch_line
  simp only [k1, k2, if_false, k3]
  have b1 : bytes data pre.length (pre.length + front.length) = front :=
    bytes_mid data pre front (middle ++ gap ++ comment) _ _
      (by simp [hd]) rfl rfl
  have b2 : bytes data (pre.length + front.length) (pre ++ front ++ middle).length = middle :=
    bytes_mid data (pre ++ front) middle (gap ++ comment) _ _
      (by simp [hd]) (by simp) (by (simp; try omega))
  have b3 : bytes data (pre ++ front ++ middle).length (data.length + 1)
      = gap ++ comment ++ [NUL] :=
    bytes_end data (pre ++ front ++ middle) (gap ++ comment) _ _
      (by simp [hd]) rfl (by (simp [hd]; try omega))
  by_cases hgc : gap ++ comment = []
  · have hg0 : gap = [] := (List.append_eq_nil.mp hgc).1
    have hc0 : comment = [] := (List.append_eq_nil.mp hgc).2
    have hdl : data.length = (pre ++ front ++ middle).length := by simp [hd, hg0, hc0]
    simp only [hgc, if_true, b1]
    rw [hdl] at b3 ⊢
    rw [b2, b3, hgc]
  · simp only [hgc, if_false, b1, b2, b3]

/-- The scanner when only whitespace remains: the early return hands back the
rest of the buffer as `front` and the caller's `middle` and `back`. -/
theorem fetch_line_blank (data pre ws m b : Str) (hd : data = pre ++ ws)
    (hws : ∀ c ∈ ws, isspace c = true) :
    fetch_line data pre.length m b = ⟨data.length, ws, m, b⟩ := by
  have hlen : data.length = pre.length + ws.length := by rw [hd]; simp
  have k1 : skip_space data (data.length - pre.length) pre.length
      = pre.length + ws.length :=
    skip_space_run data ws pre [] _ _ (by simp [hd]) rfl hws (by simp) (by omega)
  have b1 : bytes data pre.length data.length = ws :=
    bytes_mid data pre ws [] _ _ (by simp [hd]) rfl hlen
  unfold fetch_line
  simp only [k1, ← hlen, ge_iff_le, le_refl, if_true, b1]

end parser

end ini

namespace ini

namespace parser

open container

theorem rdropWhile_append_rtakeWhile (p : Char → Bool) (l : Str) :
    l.rdropWhile p ++ l.rtakeWhile p = l := by
  unfold List.rdropWhile List.rtakeWhile
  rw [← List.reverse_append, List.takeWhile_append_dropWhile, List.reverse_reverse]

theorem rdropWhile_last (p : Char → Bool) (l : Str) (c : Char)
    (h : (l.rdropWhile p).getLast? = some c) : p c = false := by
  unfold List.rdropWhile at h
  rw [List.getLast?_reverse] at h
  have h1 := List.head?_dropWhile_not p l.reverse
  rw [h] at h1
  exact h1

/-- Every non-empty remainder that starts with a non-whitespace byte splits
into content, trailing whitespace, comment and what follows the line. -/
theorem split_line (r : Str) :
    ∃ w t rest,
      r = ((r.takeWhile fun c => c != '\n').takeWhile fun c => !is_comment c).rdropWhile isspace
            ++ w ++ t ++ rest ∧
      (r.takeWhile fun c => c != '\n')
        = ((r.takeWhile fun c => c != '\n').takeWhile fun c => !is_comment c).rdropWhile isspace
            ++ w ++ t ∧
      (∀ c ∈ ((r.takeWhile fun c => c != '\n').takeWhile fun c => !is_comment c).rdropWhile
          isspace, is_comment c = false ∧ c ≠ '\n') ∧
      (∀ c, (((r.takeWhile fun c => c != '\n').takeWhile fun c => !is_comment c).rdropWhile
          isspace).getLast? = some c → isspace c = false) ∧
      (∀ c ∈ w, isspace c = true ∧ c ≠ '\n') ∧
      (∀ c ∈ t, c ≠ '\n') ∧
      (∀ c, t.head? = some c → is_comment c = true) ∧
      (rest = [] ∨ ∃ x, rest = '\n' :: x) := by
  have hL : ∀ c ∈ (r.takeWhile fun c => c != '\n'), c ≠ '\n' := by
    intro c hc
    have := List.mem_takeWhile_imp hc
    simpa using this
  have e1 := List.takeWhile_append_dropWhile (fun c => c != '\n') r
  have e2 := List.takeWhile_append_dropWhile (fun c => !is_comment c)
    (r.takeWhile fun c => c != '\n')
  have e3 := rdropWhile_append_rtakeWhile isspace
    ((r.takeWhile fun c => c != '\n').takeWhile fun c => !is_comment c)
  have hP : ∀ c ∈ ((r.takeWhile fun c => c != '\n').takeWhile fun c => !is_comment c),
      is_comment c = false ∧ c ≠ '\n' := by
    intro c hc
    have h1 := List.mem_takeWhile_imp hc
    exact ⟨by simpa using h1, hL c ((List.takeWhile_prefix _).subset hc)⟩
  refine ⟨((r.takeWhile fun c => c != '\n').takeWhile fun c => !is_comment c).rtakeWhile isspace,
    (r.takeWhile fun c => c != '\n').dropWhile fun c => !is_comment c,
    r.dropWhile fun c => c != '\n', ?_, ?_, ?_, ?_, ?_, ?_, ?_, ?_⟩
  · rw [e3, e2, e1]
  · rw [e3, e2]
  · intro c hc
    exact hP c ((List.rdropWhile_prefix _ _).subset hc)
  · intro c hc
    exact rdropWhile_last isspace _ c hc
  · intro c hc
    exact ⟨List.mem_rtakeWhile_imp hc, (hP c ((List.rtakeWhile_suffix _ _).subset hc)).2⟩
  · intro c hc
    exact hL c ((List.dropWhile_sublist _).subset hc)
  · intro c hc
    have h1 := List.head?_dropWhile_not (fun c => !is_comment c)
      (r.takeWhile fun c => c != '\n')
    rw [hc] at h1
    simpa using h1
  · cases hd : r.dropWhile fun c => c != '\n' with
    | nil => left; rfl
    | cons y ys =>
      right
      have h1 := List.head?_dropWhile_not (fun c => c != '\n') r
      rw [hd] at h1
      simp only [List.head?_cons, bne_eq_false_iff_eq] at h1
      exact ⟨ys, by rw [h1]⟩

end parser

end ini

namespace ini

namespace parser

open container

/-- The scanner wherever a non-whitespace byte remains: `front` is the
whitespace skipped, `middle` is the reference content, `back` is the rest of
the line with its newline (or the terminator of the buffer when the line has
none), and the returned offset is where the line ends. -/
theorem fetch_line_content (data : Str) (p : Nat) (m b : Str) (hp : p ≤ data.length)
    (hex : ∃ c ∈ data.drop p, isspace c = false) :
    ∃ w t rest,
      fetch_line data p m b
        = ⟨p + ((data.drop p).takeWhile isspace).length + (line_text data p).length,
           (data.drop p).takeWhile isspace, middle_ref data p,
           w ++ t ++ (rest ++ [NUL]).take 1⟩ ∧
      line_text data p = middle_ref data p ++ w ++ t ∧
      data.drop p = (data.drop p).takeWhile isspace ++ line_text data p ++ rest ∧
      (rest = [] ∨ ∃ x, rest = '\n' :: x) ∧
      (∀ c ∈ w, isspace c = true ∧ c ≠ '\n') ∧
      (∀ c ∈ t, c ≠ '\n') ∧
      (∀ c, t.head? = some c → is_comment c = true) ∧
      (∀ c, (line_text data p).head? = some c → isspace c = false) ∧
      line_text data p ≠ [] := by
  have hpre : (data.take p).length = p := by simp [hp]
  have e0 : data = data.take p ++ ((data.drop p).takeWhile isspace
      ++ (data.drop p).dropWhile isspace) := by
    rw [List.takeWhile_append_dropWhile, List.take_append_drop]
  obtain ⟨y, ys, hy⟩ : ∃ y ys, (data.drop p).dropWhile isspace = y :: ys := by
    cases h : (data.drop p).dropWhile isspace with
    | nil =>
      obtain ⟨c, hc, hcs⟩ := hex
      have := List.dropWhile_eq_nil_iff.mp h c hc
      rw [hcs] at this
      exact absurd this (by simp)
    | cons y ys => exact ⟨y, ys, rfl⟩
  have hy0 : isspace y = false := by
    have h1 := List.head?_dropWhile_not isspace (data.drop p)
    rw [hy] at h1
    exact h1
  have hyn : y ≠ '\n' := by
    intro e; rw [e] at hy0; simp [isspace_newline] at hy0
  have hLc : line_text data p = y :: ys.takeWhile fun c => c != '\n' := by
    unfold line_text
    rw [hy]
    have : (y != '\n') = true := by simp [hyn]
    rw [List.takeWhile_cons, if_pos this]
  obtain ⟨w, t, rest, s1, s2, s3, s4, s5, s6, s7, s8⟩ :=
    split_line ((data.drop p).dropWhile isspace)
  have hM : ((((data.drop p).dropWhile isspace).takeWhile fun c => c != '\n').takeWhile
      fun c => !is_comment c).rdropWhile isspace = middle_ref data p := rfl
  have hL : (((data.drop p).dropWhile isspace).takeWhile fun c => c != '\n')
      = line_text data p := rfl
  rw [hM] at s1 s2 s3 s4
  rw [hL] at s2
  have hfr : ∀ c ∈ (data.drop p).takeWhile isspace, isspace c = true :=
    fun c hc => List.mem_takeWhile_imp hc
  have hh : ∀ c, (middle_ref data p ++ w ++ t).head? = some c → isspace c = false := by
    intro c hc
    rw [← s2, hLc] at hc
    simp only [List.head?_cons, Option.some.injEq] at hc
    rw [← hc]; exact hy0
  have hne : middle_ref data p ++ w ++ t ≠ [] := by
    rw [← s2, hLc]; simp
  have hd : data = data.take p ++ (data.drop p).takeWhile isspace ++ middle_ref data p
      ++ w ++ t ++ rest := by
    conv => lhs; rw [e0, s1]
    simp
  have hdrop : data.drop p
      = (data.drop p).takeWhile isspace ++ line_text data p ++ rest := by
    conv => lhs; rw [← List.takeWhile_append_dropWhile isspace (data.drop p), s1]
    rw [s2]; simp
  have hlen : (data.take p ++ (data.drop p).takeWhile isspace ++ middle_ref data p
      ++ w ++ t).length
      = p + ((data.drop p).takeWhile isspace).length + (line_text data p).length := by
    rw [s2]; simp [hp]; omega
  refine ⟨w, t, rest, ?_, s2, hdrop, s8, s5, s6, s7, ?_, ?_⟩
  · rcases s8 with h | ⟨x, h⟩
    · subst h
      have hd' : data = data.take p ++ (data.drop p).takeWhile isspace ++ middle_ref data p
          ++ w ++ t := by simpa using hd
      have := fetch_line_parts_end data (data.take p) _ _ w t m b hd' hfr s3 hh hne s4 s5 s6 s7
      rw [hpre] at this
      rw [this, ← hlen, ← hd']
      rfl
    · subst h
      have := fetch_line_parts data (data.take p) _ _ w t x m b hd hfr s3 hh hne s4 s5 s6 s7
      rw [hpre] at this
      rw [this, hlen]
      rfl
  · intro c hc
    rw [hLc] at hc
    simp only [List.head?_cons, Option.some.injEq] at hc
    rw [← hc]; exact hy0
  · rw [hLc]; simp

/-- The scanner where only whitespace remains. -/
theorem fetch_line_rest_blank (data : Str) (p : Nat) (m b : Str) (hp : p ≤ data.length)
    (hws : ∀ c ∈ data.drop p, isspace c = true) :
    fetch_line data p m b = ⟨data.length, data.drop p, m, b⟩ := by
  have hpre : (data.take p).length = p := by simp [hp]
  have := fetch_line_blank data (data.take p) (data.drop p) m b
    (List.take_append_drop p data).symm hws
  rw [hpre] at this
  exact this

end parser

end ini

namespace ini

namespace parser

open container

/-- Every remainder of the buffer is either all whitespace or holds a
non-whitespace byte. -/
theorem blank_or_content (r : Str) :
    (∀ c ∈ r, isspace c = true) ∨ ∃ c ∈ r, isspace c = false := by
  by_cases h : ∀ c ∈ r, isspace c = true
  · exact Or.inl h
  · right
    push_neg at h
    obtain ⟨c, hc, hn⟩ := h
    exact ⟨c, hc, by simpa using hn⟩

/-- The offset returned by the scanner lies between the start offset and the
size of the buffer, and inside the buffer it is the offset of a newline. -/
theorem fetch_line_bounds (data : Str) (p : Nat) (m b : Str) (hp : p ≤ data.length) :
    p ≤ (fetch_line data p m b).npos ∧ (fetch_line data p m b).npos ≤ data.length ∧
    ((fetch_line data p m b).npos < data.length →
      at_ data (fetch_line data p m b).npos = '\n') := by
  rcases blank_or_content (data.drop p) with h | h
  · rw [fetch_line_rest_blank data p m b hp h]
    exact ⟨hp, Nat.le_refl _, fun hlt => absurd hlt (Nat.lt_irrefl _)⟩
  · obtain ⟨w, t, rest, e1, _, e3, e4, _⟩ := fetch_line_content data p m b hp h
    rw [e1]
    have hlen : data.length - p = ((data.drop p).takeWhile isspace).length
        + (line_text data p).length + rest.length := by
      have := congrArg List.length e3
      simp only [List.length_drop, List.length_append] at this
      omega
    refine ⟨by simp only; omega, by simp only; omega, ?_⟩
    simp only
    intro hlt
    rcases e4 with e | ⟨x, e⟩
    · subst e; simp at hlen; omega
    · have hd : data = (data.take p ++ (data.drop p).takeWhile isspace ++ line_text data p)
          ++ '\n' :: x := by
        conv => lhs; rw [← List.take_append_drop p data, e3, e]
        simp
      have hl : (data.take p ++ (data.drop p).takeWhile isspace ++ line_text data p).length
          = p + ((data.drop p).takeWhile isspace).length + (line_text data p).length := by
        simp [hp]; omega
      have := at_append_cons
        (data.take p ++ (data.drop p).takeWhile isspace ++ line_text data p) '\n' x
      rw [← hd, hl] at this
      exact this

/-- Each iteration of the loop of `read_ini` moves the offset forward. -/
theorem read_body_advances (data : Str) (st : RState) (h : st.npos < data.length) :
    st.npos < (read_body data st).npos ∧ (read_body data st).npos ≤ data.length + 1 := by
  obtain ⟨h1, h2, _⟩ := fetch_line_bounds data st.npos st.middle st.back (Nat.le_of_lt h)
  unfold read_body
  simp only
  omega

/-- Each iteration of the loop of `write_ini` moves the offset forward. -/
theorem write_body_advances (under : Nat → Char) (data : Str) (st : WState)
    (h : st.npos < data.length) :
    st.npos < (write_body under data st).npos ∧
    (write_body under data st).npos ≤ data.length + 1 := by
  obtain ⟨h1, h2, _⟩ := fetch_line_bounds data st.npos st.middle st.back (Nat.le_of_lt h)
  unfold write_body
  simp only
  omega

/-- The loop of `read_ini` has left the buffer once it has run for as many
iterations as bytes remain. -/
theorem read_loop_ends (data : Str) (fuel : Nat) : ∀ st : RState,
    data.length ≤ st.npos + fuel → data.length ≤ (read_loop data fuel st).npos := by
  induction fuel with
  | zero => intro st h; simpa [read_loop] using h
  | succ n ih =>
    intro st h
    rw [read_loop]
    by_cases hlt : st.npos < data.length
    · rw [if_pos hlt]
      apply ih
      have := (read_body_advances data st hlt).1
      omega
    · rw [if_neg hlt]; omega

/-- The loop of `write_ini` has left the buffer once it has run for as many
iterations as bytes remain. -/
theorem write_loop_ends (under : Nat → Char) (data : Str) (fuel : Nat) : ∀ st : WState,
    data.length ≤ st.npos + fuel → data.length ≤ (write_loop under data fuel st).npos := by
  induction fuel with
  | zero => intro st h; simpa [write_loop] using h
  | succ n ih =>
    intro st h
    rw [write_loop]
    by_cases hlt : st.npos < data.length
    · rw [if_pos hlt]
      apply ih
      have := (write_body_advances under data st hlt).1
      omega
    · rw [if_neg hlt]; omega

/-- More iterations than needed change nothing in the loop of `read_ini`. -/
theorem read_loop_more (data : Str) (fuel extra : Nat) : ∀ st : RState,
    data.length ≤ st.npos + fuel →
    read_loop data (fuel + extra) st = read_loop data fuel st := by
  induction fuel with
  | zero =>
    intro st h
    rw [Nat.zero_add, read_loop_done data extra st (by omega), read_loop_done data 0 st (by omega)]
  | succ n ih =>
    intro st h
    rw [Nat.succ_add, read_loop, read_loop]
    by_cases hlt : st.npos < data.length
    · rw [if_pos hlt, if_pos hlt]
      apply ih
      have := (read_body_advances data st hlt).1
      omega
    · rw [if_neg hlt, if_neg hlt]

/-- More iterations than needed change nothing in the loop of `write_ini`. -/
theorem write_loop_more (under : Nat → Char) (data : Str) (fuel extra : Nat) :
    ∀ st : WState, data.length ≤ st.npos + fuel →
    write_loop under data (fuel + extra) st = write_loop under data fuel st := by
  induction fuel with
  | zero =>
    intro st h
    rw [Nat.zero_add, write_loop_done under data extra st (by omega),
      write_loop_done under data 0 st (by omega)]
  | succ n ih =>
    intro st h
    rw [Nat.succ_add, write_loop, write_loop]
    by_cases hlt : st.npos < data.length
    · rw [if_pos hlt, if_pos hlt]
      apply ih
      have := (write_body_advances under data st hlt).1
      omega
    · rw [if_neg hlt, if_neg hlt]

end parser

end ini

namespace ini

namespace parser

open container

/-- The reference content holds no comment marker and no newline. -/
theorem middle_ref_chars (data : Str) (p : Nat) :
    ∀ c ∈ middle_ref data p, c ≠ ';' ∧ c ≠ '#' ∧ c ≠ '\n' := by
  intro c hc
  have h1 : c ∈ (line_text data p).takeWhile fun c => !is_comment c :=
    (List.rdropWhile_prefix _ _).subset hc
  have h2 := List.mem_takeWhile_imp h1
  have h3 : c ∈ line_text data p := (List.takeWhile_prefix _).subset h1
  have h4 := List.mem_takeWhile_imp h3
  simp only [is_comment, Bool.not_eq_true', Bool.or_eq_false_iff, beq_eq_false_iff_ne] at h2
  exact ⟨h2.1, h2.2, by simpa using h4⟩

/-- The scanner with the exact offset, wherever a non-whitespace byte remains:
`middle` is the reference content of the line (the longest prefix of the line
text without `;` and `#`, trailing whitespace removed).  It holds no `;`, `#`
or newline, does not start or end with whitespace, is a contiguous prefix of
the line text (interior whitespace kept), and all the rest of the line text,
whitespace or not, is in `back`. -/
theorem fetch_line_middle_parts (data : Str) (p : Nat) (m b : Str)
    (hex : ∃ c ∈ data.drop p, isspace c = false) :
    (fetch_line data p m b).middle = middle_ref data p ∧
    (∀ c ∈ (fetch_line data p m b).middle, c ≠ ';' ∧ c ≠ '#' ∧ c ≠ '\n') ∧
    (∀ c, (fetch_line data p m b).middle.head? = some c → isspace c = false) ∧
    (∀ c, (fetch_line data p m b).middle.getLast? = some c → isspace c = false) ∧
    ∃ tail eol, line_text data p = (fetch_line data p m b).middle ++ tail ∧
      (fetch_line data p m b).back = tail ++ eol ∧
      (eol = ['\n'] ∨ eol = [NUL]) ∧
      (∀ c, tail.head? = some c → isspace c = true ∨ c = ';' ∨ c = '#') := by
  have hp : p ≤ data.length := by
    obtain ⟨c, hc, _⟩ := hex
    by_contra hn
    rw [List.drop_eq_nil_of_le (by omega)] at hc
    simp at hc
  obtain ⟨w, t, rest, e1, e2, _, e4, e5, _, e7, e8, _⟩ := fetch_line_content data p m b hp hex
  rw [e1]
  simp only
  refine ⟨trivial, middle_ref_chars data p, ?_, fun c hc => rdropWhile_last _ _ c hc, ?_⟩
  · intro c hc
    apply e8 c
    rw [e2]
    cases hm : middle_ref data p with
    | nil => rw [hm] at hc; simp at hc
    | cons x xs => rw [hm] at hc; simpa using hc
  · refine ⟨w ++ t, (rest ++ [NUL]).take 1, by rw [e2, List.append_assoc],
      by rw [List.append_assoc], ?_, ?_⟩
    · rcases e4 with e | ⟨x, e⟩ <;> subst e <;> simp
    · intro c hc
      cases hw : w with
      | nil =>
        rw [hw] at hc
        have := e7 c (by simpa using hc)
        simp only [is_comment, Bool.or_eq_true, beq_iff_eq] at this
        exact Or.inr this
      | cons x xs =>
        rw [hw] at hc
        simp only [List.cons_append, List.head?_cons, Option.some.injEq] at hc
        left
        rw [← hc]
        exact (e5 x (by rw [hw]; simp)).1

end parser

end ini

namespace ini

namespace parser

open container

/-- The reference content does not start with whitespace. -/
theorem middle_ref_head (data : Str) (p : Nat) (hex : ∃ c ∈ data.drop p, isspace c = false) :
    ∀ c, (middle_ref data p).head? = some c → isspace c = false := by
  have hp : p ≤ data.length := by
    obtain ⟨c, hc, _⟩ := hex
    by_contra hn
    rw [List.drop_eq_nil_of_le (by omega)] at hc
    simp at hc
  obtain ⟨w, t, rest, _, e2, _, _, _, _, _, e8, _⟩ := fetch_line_content data p [] [] hp hex
  intro c hc
  apply e8 c
  rw [e2]
  cases hm : middle_ref data p with
  | nil => rw [hm] at hc; simp at hc
  | cons x xs => rw [hm] at hc; simpa using hc

end parser

end ini

namespace ini

namespace parser

open container

theorem section_dirty_eq (c : Config) (s : Str) :
    section_dirty c s = (getter c s).2.update_ := by
  unfold section_dirty
  rw [getter_snd_eq]
  cases umap_find c.value_ s <;> rfl

theorem attr_dirty_eq (c : Config) (s k : Str) :
    attr_dirty c s k = (getter (getter c s).2 k).2.update_ := by
  unfold attr_dirty
  rw [attr_at_eq_getter, getter_snd_eq (getter c s).2 k]
  cases umap_find (getter c s).2.value_ k <;> rfl

/-- What the loader does with one line changes no dirty flag. -/
theorem read_line_flags (sn : Str) (conf : Config) (m s k : Str) :
    (read_line sn conf m).2.update_ = conf.update_ ∧
    section_dirty (read_line sn conf m).2 s = section_dirty conf s ∧
    attr_dirty (read_line sn conf m).2 s k = attr_dirty conf s k := by
  unfold read_line
  split
  · exact ⟨rfl, rfl, rfl⟩
  split
  · exact ⟨rfl, rfl, rfl⟩
  split
  · simp only
    refine ⟨?_, ?_, ?_⟩
    · show (getter conf sn).1.update_ = conf.update_
      exact getter_update conf sn
    · by_cases hs : s = sn
      · subst hs
        unfold section_dirty
        rw [store_find_self _ _ _ _ (getter_find_self conf s)]
        have h0 := section_dirty_eq conf s
        unfold section_dirty at h0
        rw [h0]
        simp only
        split
        · show (getter (getter conf s).2 (key_of m)).1.update_ = _
          exact getter_update _ _
        · exact getter_update _ _
      · unfold section_dirty
        rw [store_find_ne _ _ _ _ hs, getter_find_ne _ _ _ hs]
    · by_cases hs : s = sn
      · subst hs
        have h0 := attr_dirty_eq conf s k
        unfold attr_dirty at h0 ⊢
        rw [attr_at_store_self, h0]
        have hsect : ∀ S : Section,
            S = (if (!(getter (getter conf s).2 (key_of m)).2.update_) = true then
              store (getter (getter conf s).2 (key_of m)).1 (key_of m)
                { (getter (getter conf s).2 (key_of m)).2 with value_ := value_of m }
              else (getter (getter conf s).2 (key_of m)).1) →
            (match umap_find S.value_ k with
              | some a => a.update_
              | none => false) = (getter (getter conf s).2 k).2.update_ := by
          intro S hS
          by_cases hk : k = key_of m
          · subst hk
            by_cases hu : (getter (getter conf s).2 (key_of m)).2.update_ = true
            · rw [if_neg (by simp [hu])] at hS
              rw [hS, getter_find_self]
            · rw [if_pos (by simpa using hu)] at hS
              rw [hS, store_find_self _ _ _ _ (getter_find_self _ _)]
          · have e1 : umap_find (getter (getter conf s).2 (key_of m)).1.value_ k
                = umap_find (getter conf s).2.value_ k := getter_find_ne _ _ _ hk
            have e2 : (getter (getter conf s).2 k).2.update_
                = match umap_find (getter conf s).2.value_ k with
                  | some a => a.update_
                  | none => false := by
              rw [getter_snd_eq]
              cases umap_find (getter conf s).2.value_ k <;> rfl
            by_cases hu : (getter (getter conf s).2 (key_of m)).2.update_ = true
            · rw [if_neg (by simp [hu])] at hS
              rw [hS, e1, e2]
            · rw [if_pos (by simpa using hu)] at hS
              rw [hS, store_find_ne _ _ _ _ hk, e1, e2]
        exact hsect _ rfl
      · unfold attr_dirty
        rw [attr_at_store_ne _ _ _ _ _ hs, attr_at_getter_ne _ _ _ _ hs]
  · exact ⟨rfl, rfl, rfl⟩

/-- The loop of `read_ini` changes no dirty flag. -/
theorem read_loop_flags (data : Str) (s k : Str) (fuel : Nat) : ∀ st : RState,
    (read_loop data fuel st).conf.update_ = st.conf.update_ ∧
    section_dirty (read_loop data fuel st).conf s = section_dirty st.conf s ∧
    attr_dirty (read_loop data fuel st).conf s k = attr_dirty st.conf s k := by
  induction fuel with
  | zero => intro st; exact ⟨rfl, rfl, rfl⟩
  | succ n ih =>
    intro st
    rw [read_loop]
    by_cases hlt : st.npos < data.length
    · rw [if_pos hlt]
      obtain ⟨a1, a2, a3⟩ := ih (read_body data st)
      obtain ⟨b1, b2, b3⟩ := read_line_flags st.section_name st.conf
        (fetch_line data st.npos st.middle st.back).middle s k
      exact ⟨a1.trans b1, a2.trans b2, a3.trans b3⟩
    · rw [if_neg hlt]; exact ⟨rfl, rfl, rfl⟩

/-- C12: loading changes no dirty flag.  For every file and every config, the
flag of every section and of every value is after `read_ini` what it was
before, where a section or value the config did not hold counts as not dirty
(so what the loader creates is not dirty); the flag of the config itself is
unchanged; a config without dirty flags stays so, and loading into the empty
config gives a config without any dirty value or section. -/
theorem load_marks_nothing_dirty (f : Str) (c : Config) (s k : Str) :
    section_dirty (read_ini f c) s = section_dirty c s ∧
    attr_dirty (read_ini f c) s k = attr_dirty c s k ∧
    (read_ini f c).update_ = c.update_ ∧
    (config_clean c = true → config_clean (read_ini f c) = true) ∧
    config_clean (read_ini f empty_config) = true := by
  obtain ⟨h1, h2, h3⟩ := read_loop_flags f s k f.length ⟨0, [], [], [], c⟩
  exact ⟨h2, h3, h1, read_ini_clean f c, read_ini_clean f empty_config rfl⟩

end parser

end ini

namespace ini

namespace parser

open container

end parser

end ini

namespace ini

namespace parser

open container

end parser

end ini

namespace ini

namespace parser

open container

/-- The attribute loop of `output_section` appends the dirty values as lines
that end with `endl`. -/
theorem output_attrs_lines (endl : Str) (m : umap Attribute) :
    ∀ data, (output_attrs endl m data).1 = data ++ with_endl endl (value_lines m) := by
  induction m with
  | nil => intro data; simp [output_attrs, value_lines, with_endl]
  | cons hd tl ih =>
    intro data
    obtain ⟨k0, a0⟩ := hd
    rw [output_attrs]
    by_cases hu : a0.update_ = true
    · simp only [hu, if_true]
      rw [ih]
      simp [value_lines, with_endl, hu, List.filter_cons]
    · have hf : a0.update_ = false := by simpa using hu
      simp only [hf, Bool.false_eq_true, if_false]
      rw [ih]
      simp [value_lines, with_endl, hf, List.filter_cons]

/-- Detection on a buffer of at least two bytes. -/
theorem detect_endl_two (under : Nat → Char) (pre : Str) (a b : Char) :
    detect_endl under (pre ++ [a, b]) []
      = if b = '\r' then ['\r']
        else if b = '\n' then (if a = '\r' then ['\r', '\n'] else ['\n'])
        else [] := by
  have h1 : peek_back under (pre ++ [a, b]) 1 = b := by
    unfold peek_back
    rw [if_pos (by simp)]
    have : pre ++ [a, b] = (pre ++ [a]) ++ b :: [] := by simp
    rw [this]
    have hl : ((pre ++ [a]) ++ b :: []).length - 1 = (pre ++ [a]).length := by simp
    rw [hl, at_append_cons]
  have h2 : peek_back under (pre ++ [a, b]) 2 = a := by
    unfold peek_back
    rw [if_pos (by simp)]
    have hl : (pre ++ [a, b]).length - 2 = pre.length := by simp
    rw [hl, at_append_cons]
  unfold detect_endl
  rw [h1, h2]
  simp only [List.isEmpty_nil, if_true, beq_iff_eq]

/-- A convention that is set is never changed by detection. -/
theorem detect_endl_keeps (under : Nat → Char) (data endl : Str) (h : endl ≠ []) :
    detect_endl under data endl = endl := by
  unfold detect_endl
  cases endl with
  | nil => exact absurd rfl h
  | cons c cs => rfl

theorem output_section_endl (under : Nat → Char) (data : Str) (sect : Section)
    (endl name : Str) :
    (output_section under data sect endl name).endl = detect_endl under data endl := by
  unfold output_section
  simp only
  split <;> rfl

theorem output_section_lines (under : Nat → Char) (data : Str) (sect : Section)
    (endl name : Str) :
    (output_section under data sect endl name).data
      = if sect.update_ = true then
          data ++ with_endl (detect_endl under data endl) (new_lines sect name)
        else data := by
  unfold output_section
  simp only
  by_cases hu : sect.update_ = true
  · rw [if_pos hu, if_pos hu]
    simp only
    rw [output_attrs_lines]
    by_cases hn : name.length ≠ 0
    · rw [if_pos hn]
      simp [new_lines, with_endl, hn]
    · rw [if_neg hn]
      simp [new_lines, with_endl, hn]
  · rw [if_neg hu, if_neg hu]

/-- C17: line-ending detection in `output_section`.  With the convention
undetermined and a buffer of at least two bytes (the last two being `a`, `b`)
the convention becomes `\r` when `b` is `\r`, `\r\n` when `a`, `b` are `\r`,
`\n`, and `\n` when `b` is `\n` and `a` is not `\r` (and stays undetermined
otherwise); a convention that is set is returned unchanged; and what the call
appends for a dirty section is the header line (when a name is given) and one
`key = value` line per dirty value, each followed by exactly the convention
the call returns. -/
theorem endl_detection (under : Nat → Char) (pre data : Str) (a b : Char) (sect : Section)
    (endl name : Str) :
    (output_section under (pre ++ [a, b]) sect [] name).endl
      = (if b = '\r' then ['\r']
         else if b = '\n' then (if a = '\r' then ['\r', '\n'] else ['\n'])
         else []) ∧
    (endl ≠ [] → (output_section under data sect endl name).endl = endl) ∧
    (output_section under data sect endl name).data
      = (if sect.update_ = true then
          data ++ with_endl (output_section under data sect endl name).endl (new_lines sect name)
         else data) := by
  refine ⟨?_, ?_, ?_⟩
  · rw [output_section_endl, detect_endl_two]
  · intro h
    rw [output_section_endl, detect_endl_keeps under data endl h]
  · rw [output_section_endl, output_section_lines]

/-- C17 on the buffer `[a]`, `x=1` with CR LF line ends: the flush of a dirty
section `b` with `y = 3` appends `[b]` and `y = 3`, each ending in CR LF. -/
theorem endl_detection_witness :
    (output_section zeros "[a]\r\nx=1\r\n".toList ⟨[("y".toList, ⟨"3".toList, true⟩)], true⟩
      [] "b".toList).endl = "\r\n".toList ∧
    (output_section zeros "[a]\r\nx=1\r\n".toList ⟨[("y".toList, ⟨"3".toList, true⟩)], true⟩
      "\r\n".toList "b".toList).endl = "\r\n".toList ∧
    (output_section zeros "[a]\r\nx=1\r\n".toList ⟨[("y".toList, ⟨"3".toList, true⟩)], true⟩
      "\r\n".toList "b".toList).data = "[a]\r\nx=1\r\n[b]\r\ny = 3\r\n".toList := by
  have h := endl_detection zeros "[a]\r\nx=1".toList "[a]\r\nx=1\r\n".toList '\r' '\n'
    ⟨[("y".toList, ⟨"3".toList, true⟩)], true⟩ "\r\n".toList "b".toList
  exact ⟨h.1.trans (by decide), h.2.1 (by decide), h.2.2.trans (by decide)⟩

end parser

end ini

namespace ini

namespace parser

open container

/-- C18 fails: on the empty file and on a one-byte file the detection in
`output_section` reads in front of the output buffer.  With zero bytes there,
`set("z","k","v")` saved over the empty file gives `[z]k = v` with no line
terminator at all (no fallback to a default line ending); with `\r` bytes
there the same call gives other bytes, and likewise for the one-byte file that
holds a newline: the output depends on memory outside the buffer. -/
theorem short_buffer_detection_unsafe :
    (write_ini zeros [] (config_set empty_config "z".toList "k".toList "v".toList)).1
      = "[z]k = v".toList ∧
    (write_ini (fun _ => '\r') [] (config_set empty_config "z".toList "k".toList "v".toList)).1
      = "[z]\rk = v\r".toList ∧
    (write_ini zeros "\n".toList (config_set empty_config "z".toList "k".toList "v".toList)).1
      = "\n[z]\nk = v\n".toList ∧
    (write_ini (fun _ => '\r') "\n".toList
        (config_set empty_config "z".toList "k".toList "v".toList)).1
      = "\n[z]\r\nk = v\r\n".toList := by
  decide

/-- C11 fails: the one-byte file `a` (no final newline) saved with an empty
config becomes `a` followed by a zero byte, and saving again over that output
with the config left by the first save gives `a` followed by two zero bytes. -/
theorem save_not_idempotent :
    write_ini zeros "a".toList empty_config = (['a', NUL], empty_config) ∧
    (write_ini zeros ['a', NUL] empty_config).1 = ['a', NUL, NUL] ∧
    (write_ini zeros ['a', NUL] empty_config).1 ≠ (write_ini zeros "a".toList empty_config).1 := by
  decide

end parser

end ini

namespace ini

namespace parser

open container

end parser

end ini

namespace ini

namespace container

end container

namespace parser

open container

end parser

end ini

namespace ini

namespace parser

open container

end parser

end ini

namespace ini

namespace parser

open container

end parser

end ini

namespace ini

namespace parser

open container

end parser

end ini

namespace ini

namespace parser

open container

theorem keeps_values_trans (s t u : Section) (h1 : keeps_values s t) (h2 : keeps_values t u) :
    keeps_values s u := by
  intro k a ha
  obtain ⟨b, hb⟩ := h1 k a ha
  obtain ⟨b', hb'⟩ := h2 k _ hb
  exact ⟨b', hb'⟩

end parser

end ini

namespace ini

namespace parser

open container

theorem to_int_small (n : Nat) (h : n < 2147483648) : to_int n = (n : Int) := by
  unfold to_int
  have : (n + 2147483648) % 4294967296 = n + 2147483648 := Nat.mod_eq_of_lt (by omega)
  rw [this]
  push_cast
  omega

theorem to_size_small (q : Nat) (h : q < 18446744073709551616) : to_size (q : Int) = q := by
  unfold to_size
  have h1 : ((q : Int) % 18446744073709551616) = (q : Int) :=
    Int.emod_eq_of_lt (by omega) (by omega)
  rw [h1]
  simp

theorem end_int_eq (e : Option Nat) : end_int e = -1 ↔ e = none := by
  cases e with
  | none => simp [end_int]
  | some q =>
    simp only [end_int, reduceCtorEq, iff_false]
    try omega

/-- On a buffer of at most `2^31` bytes the scan with the 32-bit `end`
computes what the scan with the exact offset computes. -/
theorem scan_line_int_exact (data : Str) (h : data.length ≤ 2147483648) (fuel : Nat) :
    ∀ (npos : Nat) (e : Option Nat) (cm : Bool),
      scan_line_int data fuel npos (end_int e) cm
        = ((scan_line data fuel npos e cm).1, end_int (scan_line data fuel npos e cm).2) := by
  induction fuel with
  | zero => intro npos e cm; rfl
  | succ n ih =>
    intro npos e cm
    rw [scan_line_int, scan_line]
    by_cases hc : (npos < data.length && at_ data npos != '\n') = true
    · rw [if_pos hc, if_pos hc]
      have hlt : npos < 2147483648 := by
        simp only [Bool.and_eq_true, decide_eq_true_eq] at hc
        omega
      have hset : (if end_int e = -1 then to_int npos else end_int e)
          = end_int (if e = none then some npos else e) := by
        cases e with
        | none => simp [end_int, to_int_small npos hlt]
        | some q =>
          have : ¬ end_int (some q) = -1 := by
            rw [end_int_eq]; simp
          rw [if_neg this]
          simp
      by_cases h1 : isspace (at_ data npos) = true
      · rw [if_pos h1, if_pos h1, hset]
        exact ih _ _ _
      · rw [if_neg h1, if_neg h1]
        by_cases h2 : (at_ data npos == ';' || at_ data npos == '#') = true
        · rw [if_pos h2, if_pos h2, hset]
          exact ih _ _ _
        · rw [if_neg h2, if_neg h2]
          by_cases h3 : (!cm) = true
          · rw [if_pos h3, if_pos h3]
            exact ih (npos + 1) none cm
          · rw [if_neg h3, if_neg h3]
            exact ih _ _ _
    · rw [if_neg hc, if_neg hc]

/-- The offset kept in `end` lies between the start of the scan and the
offset the scan returns, which does not leave the buffer. -/
theorem scan_line_range (data : Str) (lo : Nat) (fuel : Nat) :
    ∀ (npos : Nat) (e : Option Nat) (cm : Bool), lo ≤ npos →
      (∀ q, e = some q → lo ≤ q ∧ q ≤ npos) →
      npos ≤ (scan_line data fuel npos e cm).1 ∧
      (scan_line data fuel npos e cm).1 ≤ max npos data.length ∧
      ∀ q, (scan_line data fuel npos e cm).2 = some q →
        lo ≤ q ∧ q ≤ (scan_line data fuel npos e cm).1 := by
  induction fuel with
  | zero =>
    intro npos e cm _ he
    exact ⟨Nat.le_refl _, Nat.le_max_left _ _, he⟩
  | succ n ih =>
    intro npos e cm hlo he
    rw [scan_line]
    by_cases hc : (npos < data.length && at_ data npos != '\n') = true
    · rw [if_pos hc]
      have hlt : npos < data.length := by
        simp only [Bool.and_eq_true, decide_eq_true_eq] at hc
        exact hc.1
      have hset : ∀ q, (if e = none then some npos else e) = some q →
          lo ≤ q ∧ q ≤ npos + 1 := by
        intro q hq
        cases e with
        | none =>
          simp only [if_true, Option.some.injEq] at hq
          omega
        | some x =>
          simp only [reduceCtorEq, if_false, Option.some.injEq] at hq
          have := he x rfl
          omega
      have hkeep : ∀ q, e = some q → lo ≤ q ∧ q ≤ npos + 1 := by
        intro q hq
        have := he q hq
        omega
      have step : ∀ (e' : Option Nat) (cm' : Bool),
          (∀ q, e' = some q → lo ≤ q ∧ q ≤ npos + 1) →
          npos ≤ (scan_line data n (npos + 1) e' cm').1 ∧
          (scan_line data n (npos + 1) e' cm').1 ≤ max npos data.length ∧
          ∀ q, (scan_line data n (npos + 1) e' cm').2 = some q →
            lo ≤ q ∧ q ≤ (scan_line data n (npos + 1) e' cm').1 := by
        intro e' cm' he'
        obtain ⟨a1, a2, a3⟩ := ih (npos + 1) e' cm' (by omega) he'
        refine ⟨by omega, ?_, a3⟩
        have : max (npos + 1) data.length = max npos data.length := by
          rw [Nat.max_def, Nat.max_def]
          split <;> split <;> omega
        exact Nat.le_trans a2 (Nat.le_of_eq this)
      by_cases h1 : isspace (at_ data npos) = true
      · rw [if_pos h1]; exact step _ _ hset
      · rw [if_neg h1]
        by_cases h2 : (at_ data npos == ';' || at_ data npos == '#') = true
        · rw [if_pos h2]; exact step _ _ hset
        · rw [if_neg h2]
          by_cases h3 : (!cm) = true
          · rw [if_pos h3]; exact step none cm (by intro q hq; simp at hq)
          · rw [if_neg h3]; exact step e cm hkeep
    · rw [if_neg hc]
      exact ⟨Nat.le_refl _, Nat.le_max_left _ _, he⟩

theorem skip_space_range (data : Str) (fuel : Nat) : ∀ npos,
    npos ≤ skip_space data fuel npos := by
  induction fuel with
  | zero => intro npos; exact Nat.le_refl _
  | succ n ih =>
    intro npos
    rw [skip_space]
    split
    · exact Nat.le_trans (Nat.le_succ _) (ih _)
    · exact Nat.le_refl _

/-- On a buffer of at most `2^31` bytes `fetch_line` with the 32-bit `end`
returns, and returns what `fetch_line` with the exact offset returns. -/
theorem fetch_line_int_exact (data : Str) (p : Nat) (m b : Str)
    (h : data.length ≤ 2147483648) :
    fetch_line_int data p m b = some (fetch_line data p m b) := by
  unfold fetch_line_int fetch_line
  simp only
  by_cases hge : skip_space data (data.length - p) p ≥ data.length
  · rw [if_pos hge, if_pos hge]
  · rw [if_neg hge, if_neg hge]
    have hs := scan_line_int_exact data h
      (data.length - skip_space data (data.length - p) p)
      (skip_space data (data.length - p) p) none false
    have he : end_int none = -1 := rfl
    rw [he] at hs
    rw [hs]
    simp only
    obtain ⟨r1, r2, r3⟩ := scan_line_range data (skip_space data (data.length - p) p)
      (data.length - skip_space data (data.length - p) p)
      (skip_space data (data.length - p) p) none false (Nat.le_refl _)
      (by intro q hq; simp at hq)
    have hr : (scan_line data (data.length - skip_space data (data.length - p) p)
        (skip_space data (data.length - p) p) none false).1 ≤ data.length := by
      have : max (skip_space data (data.length - p) p) data.length = data.length := by
        rw [Nat.max_def]; split <;> omega
      exact Nat.le_trans r2 (Nat.le_of_eq this)
    cases hq : (scan_line data (data.length - skip_space data (data.length - p) p)
        (skip_space data (data.length - p) p) none false).2 with
    | none =>
      simp only [end_int, if_true]
      rw [if_pos ⟨r1, Nat.le_refl _⟩]
    | some q =>
      obtain ⟨q1, q2⟩ := r3 q hq
      have hne : ¬ end_int (some q) = -1 := by rw [end_int_eq]; simp
      rw [if_neg hne]
      have : to_size (end_int (some q)) = q := to_size_small q (by omega)
      rw [this, if_pos ⟨q1, q2⟩]

end parser

end ini

namespace ini

namespace parser

open container

theorem at_replicate (n i : Nat) (c d : Char) (tl : Str) (h : i < n) :
    at_ (List.replicate n c ++ d :: tl) i = c := by
  have e : List.replicate n c ++ d :: tl
      = List.replicate i c ++ c :: (List.replicate (n - i - 1) c ++ d :: tl) := by
    have : n = i + (1 + (n - i - 1)) := by omega
    conv => lhs; rw [this, List.replicate_add, List.replicate_add]
    simp
  have := at_append_cons (List.replicate i c) c (List.replicate (n - i - 1) c ++ d :: tl)
  rw [← e, List.length_replicate] at this
  exact this

theorem at_replicate_end (n : Nat) (c d : Char) (tl : Str) :
    at_ (List.replicate n c ++ d :: tl) n = d := by
  have := at_append_cons (List.replicate n c) d tl
  rw [List.length_replicate] at this
  exact this

/-- The scan with the 32-bit `end` over a run of the letter `a`: `end` stays
unset. -/
theorem scan_line_int_run (n : Nat) (d : Char) (k : Nat) : ∀ (i fuel : Nat), i + k = n →
    scan_line_int (List.replicate n 'a' ++ [d]) (fuel + k) i (-1) false
      = scan_line_int (List.replicate n 'a' ++ [d]) fuel n (-1) false := by
  induction k with
  | zero => intro i fuel h; simp at h; rw [h]; rfl
  | succ k ih =>
    intro i fuel h
    have hi : i < n := by omega
    have hat : at_ (List.replicate n 'a' ++ [d]) i = 'a' := at_replicate n i 'a' d [] hi
    have hlen : i < (List.replicate n 'a' ++ [d]).length := by
      rw [List.length_append, List.length_replicate]
      exact Nat.lt_succ_of_lt hi
    rw [show fuel + (k + 1) = (fuel + k) + 1 from rfl, scan_line_int]
    have c1 : (decide (i < (List.replicate n 'a' ++ [d]).length)
        && at_ (List.replicate n 'a' ++ [d]) i != '\n') = true := by
      rw [hat, decide_eq_true hlen]; rfl
    rw [if_pos c1, hat]
    have c2 : ¬ (isspace 'a' = true) := by decide
    have c3 : ¬ (('a' == ';' || 'a' == '#') = true) := by decide
    rw [if_neg c2, if_neg c3, if_pos (show (!false) = true from rfl)]
    exact ih (i + 1) fuel (by omega)

/-- On a buffer made of `n` letters followed by one space or comment marker,
where `(int)n` is negative, `fetch_line` with the 32-bit `end` hands `assign`
a range whose end lies outside the buffer: it does not return. -/
theorem fetch_line_int_wraps (n : Nat) (d : Char) (m b : Str) (hn : 0 < n)
    (hd : d ≠ '\n') (hsc : isspace d = true ∨ (d == ';' || d == '#') = true)
    (h1 : to_int n ≠ -1) (h2 : n + 1 < to_size (to_int n)) :
    fetch_line_int (List.replicate n 'a' ++ [d]) 0 m b = none := by
  have hlen : (List.replicate n 'a' ++ [d]).length = n + 1 := by simp
  have hat0 : at_ (List.replicate n 'a' ++ [d]) 0 = 'a' := at_replicate n 0 'a' d [] hn
  have hskip : skip_space (List.replicate n 'a' ++ [d])
      ((List.replicate n 'a' ++ [d]).length - 0) 0 = 0 := by
    rw [hlen, Nat.sub_zero, skip_space, hat0]
    have : ¬ ((decide (0 < (List.replicate n 'a' ++ [d]).length) && isspace 'a') = true) := by
      have : isspace 'a' = false := by decide
      rw [this]; simp
    rw [if_neg this]
  have hatn : at_ (List.replicate n 'a' ++ [d]) n = d := at_replicate_end n 'a' d []
  have hscan : scan_line_int (List.replicate n 'a' ++ [d]) (n + 1) 0 (-1) false
      = (n + 1, to_int n) := by
    have hrun := scan_line_int_run n d n 0 1 (by omega)
    rw [Nat.add_comm 1 n] at hrun
    rw [hrun, scan_line_int]
    have c1 : (decide (n < (List.replicate n 'a' ++ [d]).length)
        && at_ (List.replicate n 'a' ++ [d]) n != '\n') = true := by
      rw [hatn, hlen]; simp [hd]
    rw [if_pos c1, hatn, if_pos rfl]
    rcases hsc with hs | hs
    · rw [if_pos hs]; rfl
    · by_cases hs' : isspace d = true
      · rw [if_pos hs']; rfl
      · rw [if_neg hs', if_pos hs]; rfl
  unfold fetch_line_int
  simp only
  rw [hskip]
  have hge : ¬ (0 ≥ (List.replicate n 'a' ++ [d]).length) := by rw [hlen]; omega
  rw [if_neg hge, hlen, Nat.sub_zero, hscan]
  simp only
  rw [if_neg h1, if_neg (by omega)]

theorem to_int_two_pow_31 : to_int 2147483648 = -2147483648 := by decide

theorem to_size_neg_two_pow_31 :
    to_size (-2147483648) = 18446744071562067968 := by decide

end parser

end ini

namespace ini

namespace parser

open container

/-- The reference content of a buffer made of `n` letters and one space. -/
theorem middle_ref_run (n : Nat) (hn : 0 < n) :
    middle_ref (List.replicate n 'a' ++ [' ']) 0 = List.replicate n 'a' := by
  obtain ⟨k, rfl⟩ : ∃ k, n = k + 1 := ⟨n - 1, by omega⟩
  have hmem : ∀ c ∈ List.replicate (k + 1) 'a' ++ [' '], c = 'a' ∨ c = ' ' := by
    intro c hc
    simp only [List.mem_append, List.mem_replicate, List.mem_singleton] at hc
    rcases hc with h | h
    · exact Or.inl h.2
    · exact Or.inr h
  have e1 : (List.replicate (k + 1) 'a' ++ [' ']).dropWhile isspace
      = List.replicate (k + 1) 'a' ++ [' '] := by
    rw [List.replicate_succ, List.cons_append, List.dropWhile_cons_of_neg (by decide)]
  have e2 : (List.replicate (k + 1) 'a' ++ [' ']).takeWhile (fun c => c != '\n')
      = List.replicate (k + 1) 'a' ++ [' '] := by
    rw [List.takeWhile_eq_self_iff]
    intro c hc
    rcases hmem c hc with h | h <;> subst h <;> decide
  have e3 : (List.replicate (k + 1) 'a' ++ [' ']).takeWhile (fun c => !is_comment c)
      = List.replicate (k + 1) 'a' ++ [' '] := by
    rw [List.takeWhile_eq_self_iff]
    intro c hc
    rcases hmem c hc with h | h <;> subst h <;> decide
  have e4 : (List.replicate (k + 1) 'a').rdropWhile isspace = List.replicate (k + 1) 'a' := by
    rw [List.rdropWhile_eq_self_iff]
    intro hl
    have : (List.replicate (k + 1) 'a').getLast hl = 'a' :=
      List.eq_of_mem_replicate (List.getLast_mem hl)
    rw [this]; decide
  unfold middle_ref line_text
  rw [List.drop_zero, e1, e2, e3, List.rdropWhile_concat_pos _ _ _ (by decide), e4]

/-- On a buffer of at most `2^31` bytes, wherever a non-whitespace byte
remains, `fetch_line` with the 32-bit `end` returns and its `middle` is the
reference content of the line: it holds no `;`, `#` or newline, does not start
or end with whitespace, and the rest of the line text is in `back`. -/
theorem fetch_line_int_middle_ref (data : Str) (p : Nat) (m b : Str)
    (hlen : data.length ≤ 2147483648) (hex : ∃ c ∈ data.drop p, isspace c = false) :
    ∃ r, fetch_line_int data p m b = some r ∧ r.middle = middle_ref data p ∧
      (∀ c ∈ r.middle, c ≠ ';' ∧ c ≠ '#' ∧ c ≠ '\n') ∧
      (∀ c, r.middle.head? = some c → isspace c = false) ∧
      (∀ c, r.middle.getLast? = some c → isspace c = false) ∧
      ∃ tail eol, line_text data p = r.middle ++ tail ∧ r.back = tail ++ eol ∧
        (eol = ['\n'] ∨ eol = [NUL]) ∧
        (∀ c, tail.head? = some c → isspace c = true ∨ c = ';' ∨ c = '#') :=
  ⟨_, fetch_line_int_exact data p m b hlen, fetch_line_middle_parts data p m b hex⟩

/-- On a buffer of at most `2^31` bytes `fetch_line` with the 32-bit `end`
returns an offset between the start offset and the size of the buffer, which
inside the buffer is the offset of a newline. -/
theorem fetch_line_int_bounds (data : Str) (p : Nat) (m b : Str)
    (hlen : data.length ≤ 2147483648) (hp : p ≤ data.length) :
    ∃ r, fetch_line_int data p m b = some r ∧ p ≤ r.npos ∧ r.npos ≤ data.length ∧
      (r.npos < data.length → at_ data r.npos = '\n') :=
  ⟨_, fetch_line_int_exact data p m b hlen, fetch_line_bounds data p m b hp⟩

/-- On `n` letters and one space within `2^31` bytes the code returns the
letters as `middle`. -/
theorem fetch_line_int_run (n : Nat) (hn : 0 < n) (hle : n + 1 ≤ 2147483648) :
    (fetch_line_int (List.replicate n 'a' ++ [' ']) 0 [] []).map (fun r => r.middle)
      = some (List.replicate n 'a') := by
  have hl : (List.replicate n 'a' ++ [' ']).length ≤ 2147483648 := by
    rw [List.length_append, List.length_replicate]; exact hle
  have hx : ∃ c ∈ (List.replicate n 'a' ++ [' ']).drop 0, isspace c = false :=
    ⟨'a', by
      rw [List.drop_zero]
      exact List.mem_append_left _ (List.mem_replicate.mpr ⟨by omega, rfl⟩), by decide⟩
  obtain ⟨r, h1, h2, _⟩ := fetch_line_int_middle_ref _ 0 [] [] hl hx
  rw [h1, Option.map_some', h2, middle_ref_run n hn]

/-- On `n` letters and one comment marker within `2^31` bytes the code returns
an offset inside the buffer or its size. -/
theorem fetch_line_int_run_npos (n : Nat) (hle : n + 1 ≤ 2147483648) :
    ∃ r, fetch_line_int (List.replicate n 'a' ++ [';']) 0 [] [] = some r ∧ r.npos ≤ n + 1 := by
  have hl : (List.replicate n 'a' ++ [';']).length = n + 1 := by
    rw [List.length_append, List.length_replicate]; rfl
  obtain ⟨r, h1, _, h3, _⟩ := fetch_line_int_bounds
    (List.replicate n 'a' ++ [';']) 0 [] [] (by rw [hl]; exact hle) (Nat.zero_le _)
  exact ⟨r, h1, by rw [hl] at h3; exact h3⟩

theorem length_run (n : Nat) (d : Char) : 0 < (List.replicate n 'a' ++ [d]).length := by
  rw [List.length_append, List.length_replicate]
  exact Nat.succ_pos _

/-- C16 fails by the 32-bit `end`: on the buffer of `2^31` letters `a` followed
by one space, scanned from offset 0, the reference content is the `2^31`
letters, but the code stores `(int)2^31`, a negative number, in `end`, hands
`middle.assign` a range that ends outside the buffer and does not return a
`middle`; with one letter less (a buffer of `2^31` bytes) it returns the
reference content. -/
theorem scanner_middle_overflow :
    middle_ref (List.replicate 2147483648 'a' ++ [' ']) 0 = List.replicate 2147483648 'a' ∧
    fetch_line_int (List.replicate 2147483648 'a' ++ [' ']) 0 [] [] = none ∧
    (fetch_line_int (List.replicate 2147483647 'a' ++ [' ']) 0 [] []).map (fun r => r.middle)
      = some (List.replicate 2147483647 'a') :=
  ⟨middle_ref_run 2147483648 (by decide),
   fetch_line_int_wraps 2147483648 ' ' [] [] (by decide) (by decide)
      (Or.inl (by decide)) (by decide) (by decide),
   fetch_line_int_run 2147483647 (by decide) (by decide)⟩

/-- C20 fails by the 32-bit `end`: on the buffer of `2^31` letters `a` followed
by a comment marker, scanned from offset 0 (an offset inside the buffer), the
code stores `(int)2^31`, a negative number, in `end`, hands `middle.assign` a
range that ends outside the buffer and returns no offset, so the loops of
`read_ini` and `write_ini` do not go on; with one letter less (a buffer of
`2^31` bytes) it returns an offset. -/
theorem scanner_progress_overflow :
    0 < (List.replicate 2147483648 'a' ++ [';']).length ∧
    fetch_line_int (List.replicate 2147483648 'a' ++ [';']) 0 [] [] = none ∧
    ∃ r, fetch_line_int (List.replicate 2147483647 'a' ++ [';']) 0 [] [] = some r ∧
      r.npos ≤ 2147483647 + 1 :=
  ⟨length_run 2147483648 ';',
   fetch_line_int_wraps 2147483648 ';' [] [] (by decide) (by decide)
      (Or.inr (by decide)) (by decide) (by decide),
   fetch_line_int_run_npos 2147483647 (by decide)⟩

end parser

end ini

namespace ini

namespace container

theorem umap_assign_keys {T : Type} (m : umap T) (k : Str) (v : T) :
    (umap_assign m k v).map Prod.fst = m.map Prod.fst := by
  induction m with
  | nil => rfl
  | cons hd tl ih =>
    obtain ⟨k0, x0⟩ := hd
    by_cases hk : k0 = k
    · simp [umap_assign, hk]
    · simp [umap_assign, hk, ih]

end container

namespace parser

open container

theorem names_nodup_getter (c : Config) (n : Str) (h : names_nodup c) :
    names_nodup (getter c n).1 := by
  unfold names_nodup getter at *
  cases hf : umap_find c.value_ n with
  | some x => exact h
  | none =>
    simp only [umap_emplace, hf, List.map_append, List.map_cons, List.map_nil]
    rw [List.nodup_append]
    refine ⟨h, by simp, ?_⟩
    intro a ha hb
    simp only [List.mem_singleton] at hb
    subst hb
    obtain ⟨p, hp, hpa⟩ := List.mem_map.mp ha
    exact keys_of_umap_find_none c.value_ a hf p hp hpa

theorem names_nodup_store (c : Config) (n : Str) (s : Section) (h : names_nodup c) :
    names_nodup (store c n s) := by
  unfold names_nodup store at *
  simp only
  rw [umap_assign_keys]
  exact h

theorem names_nodup_flush_last (under : Nat → Char) (st : WState) (h : names_nodup st.conf) :
    names_nodup (flush_last under st).conf := by
  unfold flush_last
  split
  · exact names_nodup_store _ _ _ (names_nodup_getter _ _ h)
  · exact h

theorem names_nodup_write_line (under : Nat → Char) (st : WState) (m : Str)
    (h : names_nodup st.conf) : names_nodup (write_line under st m).conf := by
  unfold write_line
  split
  · exact h
  split
  · simp only
    split
    · exact names_nodup_getter _ _ (names_nodup_store _ _ _ (names_nodup_getter _ _ h))
    · exact names_nodup_getter _ _ h
  split
  · split
    · simp only
      split
      · exact names_nodup_store _ _ _ (names_nodup_getter _ _ h)
      · exact names_nodup_store _ _ _ (names_nodup_getter _ _ h)
    · exact h
  · exact h

theorem names_nodup_write_loop (under : Nat → Char) (data : Str) (fuel : Nat) :
    ∀ st : WState, names_nodup st.conf → names_nodup (write_loop under data fuel st).conf := by
  induction fuel with
  | zero => intro st h; exact h
  | succ n ih =>
    intro st h
    rw [write_loop]
    split
    · exact ih _ (names_nodup_write_line under st _ h)
    · exact h

theorem names_nodup_write_scan (under : Nat → Char) (f : Str) (c : Config)
    (h : names_nodup c) : names_nodup (write_scan under f c).conf :=
  names_nodup_flush_last under _ (names_nodup_write_loop under f f.length _ h)

end parser

end ini

namespace ini

namespace parser

open container

end parser

end ini

namespace ini

namespace parser

open container

theorem write_ini_in_self (under : Nat → Char) (f : Str) (c : Config) :
    (write_ini under f c).1 = write_ini_in under f c (write_scan under f c).conf.value_ := rfl

end parser

end ini

namespace ini

namespace parser

open container

theorem names_nodup_config_set (c : Config) (s k v : Str) (h : names_nodup c) :
    names_nodup (config_set c s k v) := by
  unfold config_set
  exact names_nodup_store _ _ _ (names_nodup_getter _ _ h)

theorem names_nodup_read_line (sn : Str) (conf : Config) (m : Str) (h : names_nodup conf) :
    names_nodup (read_line sn conf m).2 := by
  unfold read_line
  split
  · exact h
  split
  · exact h
  split
  · exact names_nodup_store _ _ _ (names_nodup_getter _ _ h)
  · exact h

theorem names_nodup_read_loop (data : Str) (fuel : Nat) : ∀ st : RState,
    names_nodup st.conf → names_nodup (read_loop data fuel st).conf := by
  induction fuel with
  | zero => intro st h; exact h
  | succ n ih =>
    intro st h
    rw [read_loop]
    split
    · exact ih _ (names_nodup_read_line _ _ _ h)
    · exact h

theorem output_all_keys (under : Nat → Char) (m : umap Section) : ∀ data endl,
    (output_all under m data endl).2.2.map Prod.fst = m.map Prod.fst := by
  induction m with
  | nil => intro data endl; rfl
  | cons hd tl ih =>
    intro data endl
    obtain ⟨n0, s0⟩ := hd
    rw [output_all]
    simp only [List.map_cons, ih]

theorem names_nodup_write_ini (under : Nat → Char) (f : Str) (c : Config)
    (h : names_nodup c) : names_nodup (write_ini under f c).2 := by
  have h1 := names_nodup_write_scan under f c h
  unfold names_nodup write_ini at *
  simp only
  rw [output_all_keys]
  exact h1

/-- Every config built by calls of the library is a map: no two of its
sections have the same name. -/
theorem names_nodup_run (ops : List Op) : names_nodup (run ops) := by
  have key : ∀ (l : List Op) (c : Config), names_nodup c →
      names_nodup (l.foldl apply_op c) := by
    intro l
    induction l with
    | nil => intro c h; exact h
    | cons op l ih =>
      intro c h
      apply ih
      cases op with
      | set s k v => exact names_nodup_config_set c s k v h
      | get s k => exact names_nodup_getter c s h
      | load f => exact names_nodup_read_loop f f.length ⟨0, [], [], [], c⟩ h
      | save under f => exact names_nodup_write_ini under f c h
  exact key ops empty_config (by unfold names_nodup empty_config; exact List.nodup_nil)

end parser

end ini
